import Mathlib

/-!
Verification of the incremental code-chunk extraction and dependency-graph
pipeline of the mcp-codebase repository, against its natural-language
specification.  Each definition below is a shallow embedding of a function of
the TypeScript source; the doc comment of every definition names the source
location it was translated from.  External collaborators (the embedding API,
the uuid generator, file-system and git process calls) are passed in as
explicit parameters, mirroring the boundary drawn in the specification.
-/

set_option maxHeartbeats 1000000

namespace McpCodebase

/-- Chunk classification, from the union type
`"function" | "class" | "type" | "constant"` of the `CodeChunk` interface
(`codeChunkingService.ts`).  `cls` stands for the source's `"class"` variant
(`class` is a reserved word in Lean) and `typ` for its `"type"` variant. -/
inductive ChunkType where
  | function
  | cls
  | typ
  | constant
deriving DecidableEq, Repr

/-- The `CodeChunk` interface of `codeChunkingService.ts` (also part_000).
`embedding?: number[] | null` is modelled as `Option (List Int)`: the vector
payload is opaque to every property proved here, so its scalars are
represented by integers.  `ctype` is the source's `type` field. -/
structure CodeChunk where
  id : String
  projectId : String
  path : String
  code : String
  ctype : ChunkType
  name : String
  lineStart : Nat
  lineEnd : Nat
  dependencies : List String
  dependents : List String
  embedding : Option (List Int)
deriving DecidableEq, Repr

/-! ### Persistence reconciler: `codeChunkRepository.ts` -/

/-- The batch-dedup key of `deduplicateChunks` (`codeChunkRepository.ts`,
`const uniqueKey = projectId + "-" + path + "-" + name`). -/
def dedupKey (c : CodeChunk) : String :=
  c.projectId ++ "-" ++ c.path ++ "-" ++ c.name

/-- The triple `(projectId, path, name)` that the schema's unique index
`chunk_unique_idx` is declared on (`db/schema.ts`). -/
def chunkTriple (c : CodeChunk) : String × String × String :=
  (c.projectId, c.path, c.name)

/-- Model of `deduplicateChunks` (`codeChunkRepository.ts`): a `Map` keyed by
`dedupKey`, populated in batch order with `set` guarded by `has`, then read
back in insertion order.  First occurrence of each key wins. -/
def deduplicateChunks (chunks : List CodeChunk) : List CodeChunk :=
  chunks.foldl
    (fun acc c => if acc.any (fun d => dedupKey d == dedupKey c) then acc else acc ++ [c])
    []

/-- The row-value record built by `saveCodeChunks` for the bulk insert
(`codeChunkRepository.ts`, `chunkValues`): a fresh uuid for `id`, every chunk
field copied, `embedding: chunk.embedding || null`. -/
structure ChunkValues where
  id : String
  projectId : String
  path : String
  code : String
  ctype : ChunkType
  name : String
  lineStart : Nat
  lineEnd : Nat
  dependencies : List String
  dependents : List String
  embedding : Option (List Int)
deriving DecidableEq, Repr

/-- A persisted row of the `code_chunks` table (`db/schema.ts`): the value
columns plus the `created_at` / `updated_at` timestamps (timestamps are
modelled as naturals). -/
structure ChunkRow where
  id : String
  projectId : String
  path : String
  code : String
  ctype : ChunkType
  name : String
  lineStart : Nat
  lineEnd : Nat
  dependencies : List String
  dependents : List String
  embedding : Option (List Int)
  createdAt : Nat
  updatedAt : Nat
deriving DecidableEq, Repr

/-- Conversion of a service-level chunk to insert values, from the
`uniqueChunks.map` inside `saveCodeChunks` (`codeChunkRepository.ts`).
`newId` stands for the `uuidv4()` call. -/
def toChunkValues (newId : String) (c : CodeChunk) : ChunkValues :=
  { id := newId
    projectId := c.projectId
    path := c.path
    code := c.code
    ctype := c.ctype
    name := c.name
    lineStart := c.lineStart
    lineEnd := c.lineEnd
    dependencies := c.dependencies
    dependents := c.dependents
    embedding := c.embedding }

/-- Conflict key of a stored row: the columns of `chunk_unique_idx`. -/
def rowKey (r : ChunkRow) : String × String × String :=
  (r.projectId, r.path, r.name)

/-- Conflict key of an insert-value record. -/
def valuesKey (v : ChunkValues) : String × String × String :=
  (v.projectId, v.path, v.name)

/-- Effect of inserting one value row with
`onConflictDoUpdate({target: [projectId, path, name], set: {code, lineStart,
lineEnd, embedding, dependencies, dependents, updatedAt: current_timestamp}})`
(`codeChunkRepository.ts`): on a key conflict the listed columns are
overwritten from the excluded row and `updatedAt` is set to the current time;
`id` and `createdAt` are not in the `set` clause and keep their stored
values.  Without a conflict the row is inserted with the schema's
`defaultNow()` timestamps. -/
def upsertChunkValues (now : Nat) (db : List ChunkRow) (v : ChunkValues) : List ChunkRow :=
  if db.any (fun r => rowKey r == valuesKey v) then
    db.map (fun r =>
      if rowKey r == valuesKey v then
        { r with
          code := v.code
          lineStart := v.lineStart
          lineEnd := v.lineEnd
          embedding := v.embedding
          dependencies := v.dependencies
          dependents := v.dependents
          updatedAt := now }
      else r)
  else
    db ++ [{ id := v.id
             projectId := v.projectId
             path := v.path
             code := v.code
             ctype := v.ctype
             name := v.name
             lineStart := v.lineStart
             lineEnd := v.lineEnd
             dependencies := v.dependencies
             dependents := v.dependents
             embedding := v.embedding
             createdAt := now
             updatedAt := now }]

/-- Conversion of the deduplicated batch to insert-value rows, from the
`uniqueChunks.map((chunk) => ({id: uuidv4(), ...}))` of `saveCodeChunks`;
`idGen i` stands for the `uuidv4()` call of the i-th mapped chunk. -/
def mapWithIds (idGen : Nat → String) : Nat → List CodeChunk → List ChunkValues
  | _, [] => []
  | i, c :: cs => toChunkValues (idGen i) c :: mapWithIds idGen (i + 1) cs

/-- Model of `saveCodeChunks` (`codeChunkRepository.ts`): early return on an
empty batch, in-batch dedup by `deduplicateChunks`, conversion to value rows,
then the bulk upsert, applied row by row in batch order as PostgreSQL
processes a multi-row `INSERT .. ON CONFLICT`. -/
def saveCodeChunks (now : Nat) (idGen : Nat → String) (db : List ChunkRow)
    (chunks : List CodeChunk) : List ChunkRow :=
  if chunks.isEmpty then db
  else
    (mapWithIds idGen 0 (deduplicateChunks chunks)).foldl (upsertChunkValues now) db

/-- Restatement of the claim's dedup policy in its own words, for comparison
with the source-derived `deduplicateChunks`: keep the first chunk of each key
and drop every later chunk with that key. -/
def keepFirstByKey : List CodeChunk → List CodeChunk
  | [] => []
  | c :: cs => c :: keepFirstByKey (cs.filter (fun d => dedupKey d != dedupKey c))
termination_by l => l.length
decreasing_by
  simp only [List.length_cons]
  exact Nat.lt_succ_of_le (List.length_filter_le _ _)

/-! Lemmas about the in-batch dedup. -/

/-- Predicate used by the dedup fold: the accumulator already holds the key. -/
def hasKey (acc : List CodeChunk) (c : CodeChunk) : Bool :=
  acc.any (fun d => dedupKey d == dedupKey c)

theorem deduplicateChunks_go (l acc : List CodeChunk) :
    l.foldl
      (fun acc c => if acc.any (fun d => dedupKey d == dedupKey c) then acc else acc ++ [c])
      acc
    = acc ++ keepFirstByKey (l.filter (fun c => !hasKey acc c)) := by
  induction l generalizing acc with
  | nil => simp [keepFirstByKey]
  | cons c cs ih =>
    simp only [List.foldl_cons, List.filter_cons]
    by_cases h : hasKey acc c
    · rw [if_pos (by simpa [hasKey] using h)]
      simp only [h, Bool.not_true, Bool.false_eq_true, if_neg, reduceIte]
      exact ih acc
    · rw [if_neg (by simpa [hasKey] using h)]
      rw [ih (acc ++ [c])]
      simp only [h, Bool.not_false, if_pos, reduceIte]
      rw [keepFirstByKey]
      have hfilter :
          cs.filter (fun d => !hasKey (acc ++ [c]) d)
            = (cs.filter (fun d => !hasKey acc d)).filter
                (fun d => dedupKey d != dedupKey c) := by
        rw [List.filter_filter]
        apply List.filter_congr
        intro d _
        simp only [hasKey, List.any_append, List.any_cons, List.any_nil, Bool.or_false,
          Bool.not_or, bne]
        have hcomm : (dedupKey c == dedupKey d) = (dedupKey d == dedupKey c) := by
          cases h1 : dedupKey c == dedupKey d <;> cases h2 : dedupKey d == dedupKey c <;>
            simp_all [beq_iff_eq]
        rw [hcomm, Bool.and_comm]
      rw [hfilter]
      simp

theorem deduplicateChunks_eq_keepFirstByKey (chunks : List CodeChunk) :
    deduplicateChunks chunks = keepFirstByKey chunks := by
  unfold deduplicateChunks
  rw [deduplicateChunks_go chunks []]
  simp [hasKey]

theorem keepFirstByKey_filter (k : String) (l : List CodeChunk) :
    (keepFirstByKey l).filter (fun c => dedupKey c == k)
      = (l.filter (fun c => dedupKey c == k)).take 1 := by
  induction l using keepFirstByKey.induct with
  | case1 => simp [keepFirstByKey]
  | case2 c cs ih =>
    rw [keepFirstByKey]
    by_cases hk : dedupKey c == k
    · simp only [List.filter_cons, hk, if_pos, reduceIte]
      have hnil :
          (cs.filter (fun d => dedupKey d != dedupKey c)).filter
            (fun c => dedupKey c == k) = [] := by
        rw [List.filter_filter, List.filter_eq_nil_iff]
        intro a _
        have hck : dedupKey c = k := by simpa [beq_iff_eq] using hk
        simp only [bne, Bool.and_eq_true, beq_iff_eq, Bool.not_eq_eq_eq_not, Bool.not_true,
          beq_eq_false_iff_ne, ne_eq, not_and]
        intro hak
        simp [hak, hck]
      rw [ih, hnil]
      simp
    · simp only [List.filter_cons, hk, Bool.false_eq_true, if_neg, reduceIte]
      rw [ih]
      congr 1
      rw [List.filter_filter]
      apply List.filter_congr
      intro a _
      cases hak : dedupKey a == k
      · simp
      · have h1 : dedupKey a = k := by simpa [beq_iff_eq] using hak
        have h2 : dedupKey a ≠ dedupKey c := by
          intro hcontra
          apply hk
          rw [beq_iff_eq, ← hcontra, h1]
        simp [bne, h2]

/-- C10: within one `saveCodeChunks` batch, among all chunks sharing a dedup
key only the first one in batch order survives `deduplicateChunks` (every
later duplicate is dropped); chunks with equal `(projectId, path, name)`
triples share a dedup key, so in particular same-key duplicates are reduced
to the first; and the database write of `saveCodeChunks` is computed from the
first-occurrence list only, so the discarded duplicates never reach the
upsert. -/
theorem saveCodeChunks_keeps_first_duplicate (now : Nat) (idGen : Nat → String)
    (db : List ChunkRow) (chunks : List CodeChunk) :
    (∀ k, (deduplicateChunks chunks).filter (fun c => dedupKey c == k)
        = (chunks.filter (fun c => dedupKey c == k)).take 1) ∧
    (∀ a b : CodeChunk, chunkTriple a = chunkTriple b → dedupKey a = dedupKey b) ∧
    saveCodeChunks now idGen db chunks
      = (mapWithIds idGen 0 (keepFirstByKey chunks)).foldl (upsertChunkValues now) db := by
  refine ⟨fun k => ?_, fun a b h => ?_, ?_⟩
  · rw [deduplicateChunks_eq_keepFirstByKey]
    exact keepFirstByKey_filter k chunks
  · simp only [chunkTriple, Prod.mk.injEq] at h
    simp [dedupKey, h.1, h.2.1, h.2.2]
  · unfold saveCodeChunks
    rw [deduplicateChunks_eq_keepFirstByKey]
    by_cases hc : chunks.isEmpty
    · have : chunks = [] := by simpa [List.isEmpty_iff] using hc
      subst this
      simp [keepFirstByKey, mapWithIds]
    · simp [hc]

/-- C9: when `saveCodeChunks` upserts a chunk whose `(projectId, path, name)`
key is already present in the store, the stored row keeps its `id` and
`createdAt` while its `code`, `lineStart`, `lineEnd`, `embedding`,
`dependencies` and `dependents` are overwritten with the chunk's values and
`updatedAt` is set to the write time; rows with other keys are untouched and
no row is added or removed. -/
theorem saveCodeChunks_conflict_updates (now : Nat) (idGen : Nat → String)
    (db : List ChunkRow) (c : CodeChunk) (r : ChunkRow)
    (hr : r ∈ db) (hkey : rowKey r = (c.projectId, c.path, c.name)) :
    (∃ r2 ∈ saveCodeChunks now idGen db [c],
        rowKey r2 = rowKey r ∧
        r2.id = r.id ∧ r2.createdAt = r.createdAt ∧
        r2.code = c.code ∧ r2.lineStart = c.lineStart ∧ r2.lineEnd = c.lineEnd ∧
        r2.embedding = c.embedding ∧ r2.dependencies = c.dependencies ∧
        r2.dependents = c.dependents ∧ r2.updatedAt = now) ∧
    (saveCodeChunks now idGen db [c]).length = db.length ∧
    (∀ s ∈ db, rowKey s ≠ rowKey r → s ∈ saveCodeChunks now idGen db [c]) := by
  have hvk : valuesKey (toChunkValues (idGen 0) c) = rowKey r := by
    rw [hkey]; rfl
  have hsave : saveCodeChunks now idGen db [c]
      = upsertChunkValues now db (toChunkValues (idGen 0) c) := by
    simp [saveCodeChunks, deduplicateChunks, mapWithIds]
  have hany : db.any (fun s => rowKey s == valuesKey (toChunkValues (idGen 0) c)) = true := by
    rw [List.any_eq_true]
    exact ⟨r, hr, by simp [hvk]⟩
  have hup : upsertChunkValues now db (toChunkValues (idGen 0) c)
      = db.map (fun s =>
          if rowKey s == valuesKey (toChunkValues (idGen 0) c) then
            { s with
              code := c.code, lineStart := c.lineStart, lineEnd := c.lineEnd,
              embedding := c.embedding, dependencies := c.dependencies,
              dependents := c.dependents, updatedAt := now }
          else s) := by
    unfold upsertChunkValues
    rw [if_pos hany]
    rfl
  rw [hsave, hup]
  refine ⟨⟨{ r with
      code := c.code, lineStart := c.lineStart, lineEnd := c.lineEnd,
      embedding := c.embedding, dependencies := c.dependencies,
      dependents := c.dependents, updatedAt := now }, ?_, ?_⟩, by simp, ?_⟩
  · refine List.mem_map.mpr ⟨r, hr, ?_⟩
    rw [if_pos (by simp [hvk])]
  · refine ⟨by simp [rowKey], rfl, rfl, rfl, rfl, rfl, rfl, rfl, rfl, rfl⟩
  · intro s hs hne
    refine List.mem_map.mpr ⟨s, hs, ?_⟩
    rw [if_neg]
    simp only [beq_iff_eq, hvk]
    exact hne

/-- Concrete stored row used to witness the upsert-conflict theorem. -/
def exRow : ChunkRow :=
  { id := "row-1", projectId := "p", path := "a.ts", code := "old code",
    ctype := .function, name := "f", lineStart := 1, lineEnd := 2,
    dependencies := [], dependents := [], embedding := none,
    createdAt := 5, updatedAt := 5 }

/-- Concrete incoming chunk with the same `(projectId, path, name)` key as
`exRow`, used to witness the upsert-conflict theorem. -/
def exChunkUpsert : CodeChunk :=
  { id := "tmp", projectId := "p", path := "a.ts", code := "new code",
    ctype := .function, name := "f", lineStart := 1, lineEnd := 3,
    dependencies := ["g"], dependents := [], embedding := some [1, 2] }

theorem saveCodeChunks_conflict_updates_witness :
    ∃ r2 ∈ saveCodeChunks 9 (fun _ => "uuid") [exRow] [exChunkUpsert],
      r2.id = exRow.id ∧ r2.createdAt = exRow.createdAt ∧
      r2.code = exChunkUpsert.code ∧ r2.updatedAt = 9 := by
  obtain ⟨⟨r2, hmem, _, hid, hca, hcode, _, _, _, _, _, hupd⟩, _, _⟩ :=
    saveCodeChunks_conflict_updates 9 (fun _ => "uuid") [exRow] exChunkUpsert exRow
      (by simp) rfl
  exact ⟨r2, hmem, hid, hca, hcode, hupd⟩

/-! ### String primitives shared by the embedded services

JavaScript's `s.split(sep)` for a one-character separator and `s.trim()` are
modelled at character level (Lean's own `String.splitOn` / `String.trim` are
implemented on byte positions, which the kernel cannot evaluate). -/

/-- Accumulator loop of `splitOnChar`. -/
def splitOnCharAux (sep : Char) : List Char → List Char → List String
  | acc, [] => [String.mk acc.reverse]
  | acc, ch :: cs =>
    if ch = sep then String.mk acc.reverse :: splitOnCharAux sep [] cs
    else splitOnCharAux sep (ch :: acc) cs

/-- Model of JavaScript `s.split(sep)` for a single-character separator:
every occurrence of `sep` ends a piece, empty pieces included, and the empty
string yields `[""]`. -/
def splitOnChar (sep : Char) (s : String) : List String :=
  splitOnCharAux sep [] s.data

/-- Model of JavaScript `s.trim()`: strip leading and trailing whitespace. -/
def jsTrim (s : String) : String :=
  String.mk (((s.data.dropWhile Char.isWhitespace).reverse.dropWhile Char.isWhitespace).reverse)

/-! ### Change detector: `gitService.ts` (part_004) -/

/-- A project row as used by the git service and the project service
(part_004): id, on-disk root path, and the optional stored baseline
revision. -/
structure Project where
  id : String
  path : String
  lastCommitHash : Option String
deriving DecidableEq, Repr

/-- Results of the external processes and file-system probes behind
`GitService`, for one project directory.  An `Except.error` value models the
underlying call throwing (a missing or broken VCS): `gitDirIsDir` is the
`fs.existsSync / fs.statSync(.git).isDirectory()` probe, `revParse` the
stdout of `git rev-parse HEAD`, `diffRaw` the stdout of
`git diff --name-only <old> <new>`. -/
structure GitEnv where
  gitDirIsDir : Except Unit Bool
  revParse : Except Unit String
  diffRaw : Except Unit String

/-- Model of `GitService.isGitRepository` (part_004): probes for a `.git`
directory, and its `try/catch` returns `false` when the probe throws. -/
def isGitRepository (env : GitEnv) (directory : String) : Bool :=
  match env.gitDirIsDir with
  | .ok b => b
  | .error _ => false

/-- Model of `GitService.getCurrentCommitHash` (part_004): `null` when the
directory is not a git repository, otherwise the trimmed stdout of
`git rev-parse HEAD`; the `try/catch` returns `null` when the command
throws. -/
def getCurrentCommitHash (env : GitEnv) (directory : String) : Option String :=
  if !isGitRepository env directory then none
  else
    match env.revParse with
    | .ok out => some (jsTrim out)
    | .error _ => none

/-- Model of `GitService.getChangedFiles` (part_004): empty when the
directory is not a git repository or when the diff output is empty, otherwise
the newline-split diff output with each file joined onto the directory
(`path.join(directory, file)` is modelled as slash concatenation); the
`try/catch` returns `[]` when the command throws. -/
def getChangedFiles (env : GitEnv) (directory oldCommitHash newCommitHash : String) :
    List String :=
  if !isGitRepository env directory then []
  else
    match env.diffRaw with
    | .error _ => []
    | .ok out =>
      let trimmed := jsTrim out
      if trimmed = "" then []
      else (splitOnChar ('\n') trimmed).map (fun file => directory ++ "/" ++ file)

/-- Result record of `GitService.getProjectChangedFiles` (part_004). -/
structure ChangedFilesResult where
  changedFiles : List String
  currentHash : Option String
  hasChanges : Bool
deriving DecidableEq, Repr

/-- Model of `GitService.getProjectChangedFiles` (part_004).  `projectLookup`
is the repository's `getProject` call: `.error` models it throwing, `.ok
none` a missing project (the function then throws internally); both are
swallowed by the function's own `try/catch`, which returns the no-changes
record.  Otherwise: no-changes when the root is not a repository or has no
current hash; has-changes with an empty list when no baseline hash is stored
(first run); no-changes when the baseline equals the current hash; else the
diff list, with `hasChanges` true iff it is non-empty. -/
def getProjectChangedFiles (env : GitEnv) (projectLookup : Except Unit (Option Project)) :
    ChangedFilesResult :=
  match projectLookup with
  | .error _ => ⟨[], none, false⟩
  | .ok none => ⟨[], none, false⟩
  | .ok (some project) =>
    if !isGitRepository env project.path then ⟨[], none, false⟩
    else
      match getCurrentCommitHash env project.path with
      | none => ⟨[], none, false⟩
      | some currentHash =>
        match project.lastCommitHash with
        | none => ⟨[], some currentHash, true⟩
        | some lastHash =>
          if lastHash = currentHash then ⟨[], some currentHash, false⟩
          else
            let changedFiles := getChangedFiles env project.path lastHash currentHash
            ⟨changedFiles, some currentHash, decide (0 < changedFiles.length)⟩

/-- C6: none of the four version-control operations propagates a failure of
its underlying command; each degrades to its documented fallback value —
`isGitRepository` to `false`, `getCurrentCommitHash` to `null`,
`getChangedFiles` to the empty list, and `getProjectChangedFiles` to the
no-changes record (also when the project lookup itself fails). -/
theorem gitService_degrades_on_failure :
    (∀ (env : GitEnv) (dir : String),
        env.gitDirIsDir = .error () → isGitRepository env dir = false) ∧
    (∀ (env : GitEnv) (dir : String),
        env.revParse = .error () → getCurrentCommitHash env dir = none) ∧
    (∀ (env : GitEnv) (dir a b : String),
        env.diffRaw = .error () → getChangedFiles env dir a b = []) ∧
    (∀ (env : GitEnv) (pl : Except Unit (Option Project)),
        (pl = .error () ∨ pl = .ok none ∨
          env.gitDirIsDir = .error () ∨ env.revParse = .error ()) →
        getProjectChangedFiles env pl = ⟨[], none, false⟩) := by
  refine ⟨?_, ?_, ?_, ?_⟩
  · intro env dir h
    simp [isGitRepository, h]
  · intro env dir h
    by_cases hrepo : isGitRepository env dir
    · simp [getCurrentCommitHash, hrepo, h]
    · simp [getCurrentCommitHash, hrepo]
  · intro env dir a b h
    by_cases hrepo : isGitRepository env dir
    · simp [getChangedFiles, hrepo, h]
    · simp [getChangedFiles, hrepo]
  · intro env pl h
    rcases h with h | h | h | h
    · subst h; rfl
    · subst h; rfl
    · match pl with
      | .error _ => rfl
      | .ok none => rfl
      | .ok (some project) =>
        have hrepo : isGitRepository env project.path = false := by
          simp [isGitRepository, h]
        simp [getProjectChangedFiles, hrepo]
    · match pl with
      | .error _ => rfl
      | .ok none => rfl
      | .ok (some project) =>
        by_cases hrepo : isGitRepository env project.path
        · have hcur : getCurrentCommitHash env project.path = none := by
            simp [getCurrentCommitHash, hrepo, h]
          simp [getProjectChangedFiles, hrepo, hcur]
        · simp [getProjectChangedFiles, hrepo]

/-- Environment where every underlying version-control call throws. -/
def envBroken : GitEnv :=
  { gitDirIsDir := .error (), revParse := .error (), diffRaw := .error () }

theorem gitService_degrades_on_failure_witness :
    isGitRepository envBroken "/r" = false ∧
    getCurrentCommitHash envBroken "/r" = none ∧
    getChangedFiles envBroken "/r" "h1" "h2" = [] ∧
    getProjectChangedFiles envBroken (.ok (some ⟨"p", "/r", none⟩)) = ⟨[], none, false⟩ :=
  ⟨gitService_degrades_on_failure.1 envBroken "/r" rfl,
   gitService_degrades_on_failure.2.1 envBroken "/r" rfl,
   gitService_degrades_on_failure.2.2.1 envBroken "/r" "h1" "h2" rfl,
   gitService_degrades_on_failure.2.2.2 envBroken (.ok (some ⟨"p", "/r", none⟩))
     (Or.inr (Or.inr (Or.inl rfl)))⟩

/-! ### Incremental-refresh decision logic: `ProjectService.analyzeProject` (part_004) -/

/-- Inputs of one `analyzeProject` run beyond the project row: the git
environment, the stored chunk count (`repository.getProjectChunkCount`), the
result of a whole-project chunking (`chunkingService.chunkEntireProject`) and
the per-file chunking (`chunkingService.chunkFile`).  The two chunking
results are opaque collaborator outputs here; the decision logic under proof
only routes between them. -/
structure AnalysisEnv where
  git : GitEnv
  storedChunkCount : Nat
  fullChunks : List CodeChunk
  fileChunks : String → List CodeChunk

/-- The `ProjectAnalysisResult` record of part_004. -/
structure AnalysisResult where
  projectId : String
  analyzedFiles : Nat
  totalChunks : Nat
  currentCommitHash : Option String
  changedFiles : Option (List String)
deriving DecidableEq, Repr

/-- Observable side effects of one `analyzeProject` run: the argument of the
`saveCodeChunks` call if one is made, the hashes written by
`updateProjectCommitHash`, and whether any chunk extraction ran at all. -/
structure AnalyzeEffects where
  savedChunks : Option (List CodeChunk)
  commitHashUpdates : List String
  extracted : Bool
deriving DecidableEq, Repr

/-- Tail of `analyzeProject` after the skip check (part_004): chunk either
the changed files one by one (incremental) or the entire project (full),
save the chunks, update the stored commit hash when one was computed, and
report `analyzedFiles` as the number of distinct chunk paths
(`new Set(chunks.map(c => c.path)).size`), `totalChunks` as the chunk count,
and the changed-file list only when non-empty. -/
def continueAnalysis (env : AnalysisEnv) (project : Project)
    (changedFiles : List String) (currentCommitHash : Option String)
    (filesToAnalyze : Option (List String)) (forceRefresh : Bool) :
    AnalysisResult × AnalyzeEffects :=
  let chunks :=
    match filesToAnalyze with
    | some files => if forceRefresh then env.fullChunks else files.bind env.fileChunks
    | none => env.fullChunks
  let upd := match currentCommitHash with | some h => [h] | none => []
  ({ projectId := project.id
     analyzedFiles := (chunks.map (fun c => c.path)).dedup.length
     totalChunks := chunks.length
     currentCommitHash := currentCommitHash
     changedFiles := if changedFiles.isEmpty then none else some changedFiles },
   { savedChunks := some chunks
     commitHashUpdates := upd
     extracted := true })

/-- Model of `ProjectService.analyzeProject` (part_004, lines 98-218) for an
existing project.  If the root is a git repository, change detection runs;
with no changes, no force-refresh, and a stored baseline, analysis is
skipped: the stored hash is refreshed only if it differs from the current
one, the stored chunk count is returned with `analyzedFiles = 0`, and nothing
is extracted or saved.  Otherwise the run continues: the changed-file list is
used only when this is not a force refresh, changes exist, and a baseline is
stored (else a full run). -/
def analyzeProject (env : AnalysisEnv) (project : Project) (forceRefresh : Bool) :
    AnalysisResult × AnalyzeEffects :=
  if isGitRepository env.git project.path then
    let pcf := getProjectChangedFiles env.git (.ok (some project))
    if !pcf.hasChanges && !forceRefresh && project.lastCommitHash.isSome then
      let upd :=
        match pcf.currentHash with
        | some h => if project.lastCommitHash ≠ some h then [h] else []
        | none => []
      ({ projectId := project.id
         analyzedFiles := 0
         totalChunks := env.storedChunkCount
         currentCommitHash := pcf.currentHash
         changedFiles := none },
       { savedChunks := none
         commitHashUpdates := upd
         extracted := false })
    else
      let filesToAnalyze :=
        if !forceRefresh && pcf.hasChanges && project.lastCommitHash.isSome then
          some pcf.changedFiles
        else none
      continueAnalysis env project pcf.changedFiles pcf.currentHash filesToAnalyze forceRefresh
  else
    continueAnalysis env project [] none none forceRefresh

/-- C4: for a project whose root is a git working copy whose current revision
equals the stored baseline, with the force-full flag not set,
`analyzeProject` skips the run entirely: it reports zero analyzed files and
the previously stored chunk count, performs no extraction, makes no
`saveCodeChunks` call, and writes no commit-hash update. -/
theorem analyzeProject_skips_when_unchanged (env : AnalysisEnv) (project : Project)
    (h out : String)
    (hrepo : env.git.gitDirIsDir = .ok true)
    (hlast : project.lastCommitHash = some h)
    (hrev : env.git.revParse = .ok out)
    (htrim : jsTrim out = h) :
    analyzeProject env project false =
      ({ projectId := project.id
         analyzedFiles := 0
         totalChunks := env.storedChunkCount
         currentCommitHash := some h
         changedFiles := none },
       { savedChunks := none
         commitHashUpdates := []
         extracted := false }) := by
  have hisrepo : isGitRepository env.git project.path = true := by
    simp [isGitRepository, hrepo]
  have hcur : getCurrentCommitHash env.git project.path = some h := by
    simp [getCurrentCommitHash, hisrepo, hrev, htrim]
  have hpcf : getProjectChangedFiles env.git (.ok (some project)) = ⟨[], some h, false⟩ := by
    simp [getProjectChangedFiles, hisrepo, hcur, hlast]
  simp [analyzeProject, hisrepo, hpcf, hlast]

/-- Concrete no-change environment and project used to witness the skip
behaviour of `analyzeProject`. -/
def envUnchanged : AnalysisEnv :=
  { git := { gitDirIsDir := .ok true, revParse := .ok "abc123", diffRaw := .ok "" }
    storedChunkCount := 7
    fullChunks := [exChunkUpsert]
    fileChunks := fun _ => [exChunkUpsert] }

/-- Concrete project whose stored baseline equals the current revision. -/
def projUnchanged : Project := { id := "proj-1", path := "/repo", lastCommitHash := some "abc123" }

theorem analyzeProject_skips_when_unchanged_witness :
    analyzeProject envUnchanged projUnchanged false =
      ({ projectId := "proj-1", analyzedFiles := 0, totalChunks := 7,
         currentCommitHash := some "abc123", changedFiles := none },
       { savedChunks := none, commitHashUpdates := [], extracted := false }) :=
  analyzeProject_skips_when_unchanged envUnchanged projUnchanged "abc123" "abc123"
    rfl rfl rfl (by decide)

/-- C5: for a project whose root is a git working copy but whose stored
baseline hash is absent (first run), `getProjectChangedFiles` reports
has-changes with an empty changed-file list, and `analyzeProject` (without
force-full) consequently runs a full extraction over the entire project —
it saves the whole-project chunk set rather than chunking an empty
changed-file list. -/
theorem firstRun_reports_changes_and_runs_full (env : AnalysisEnv) (project : Project)
    (out : String)
    (hrepo : env.git.gitDirIsDir = .ok true)
    (hlast : project.lastCommitHash = none)
    (hrev : env.git.revParse = .ok out) :
    getProjectChangedFiles env.git (.ok (some project))
      = ⟨[], some (jsTrim out), true⟩ ∧
    (analyzeProject env project false).2.extracted = true ∧
    (analyzeProject env project false).2.savedChunks = some env.fullChunks ∧
    (analyzeProject env project false).1.totalChunks = env.fullChunks.length := by
  have hisrepo : isGitRepository env.git project.path = true := by
    simp [isGitRepository, hrepo]
  have hcur : getCurrentCommitHash env.git project.path = some (jsTrim out) := by
    simp [getCurrentCommitHash, hisrepo, hrev]
  have hpcf : getProjectChangedFiles env.git (.ok (some project))
      = ⟨[], some (jsTrim out), true⟩ := by
    simp [getProjectChangedFiles, hisrepo, hcur, hlast]
  refine ⟨hpcf, ?_, ?_, ?_⟩ <;>
    simp [analyzeProject, hisrepo, hpcf, hlast, continueAnalysis]

/-- Concrete first-run project (no stored baseline). -/
def projFirstRun : Project := { id := "proj-1", path := "/repo", lastCommitHash := none }

theorem firstRun_reports_changes_and_runs_full_witness :
    getProjectChangedFiles envUnchanged.git (.ok (some projFirstRun))
      = ⟨[], some "abc123", true⟩ ∧
    (analyzeProject envUnchanged projFirstRun false).2.extracted = true ∧
    (analyzeProject envUnchanged projFirstRun false).2.savedChunks
      = some envUnchanged.fullChunks ∧
    (analyzeProject envUnchanged projFirstRun false).1.totalChunks
      = envUnchanged.fullChunks.length :=
  firstRun_reports_changes_and_runs_full envUnchanged projFirstRun "abc123" rfl rfl rfl

/-! ### Path primitives (node `path`, POSIX)

`path.relative(from, to)` on resolved absolute paths and `path.isAbsolute`
are modelled on slash-separated segments: split on `/`, strip the common
prefix, prepend one `..` per remaining `from` segment, join with `/`. -/

/-- Non-empty slash-separated segments of a path string. -/
def pathSegs (p : String) : List String :=
  (splitOnChar '/' p).filter (fun s => s != "")

/-- Strip the common leading segments of two segment lists. -/
def dropCommon : List String → List String → List String × List String
  | a :: as, b :: bs => if a = b then dropCommon as bs else (a :: as, b :: bs)
  | as, bs => (as, bs)

/-- Join path segments with `/` (also models JavaScript `array.join(sep)`). -/
def joinWith (sep : String) : List String → String
  | [] => ""
  | [s] => s
  | s :: ss => s ++ sep ++ joinWith sep ss

/-- Model of POSIX `path.relative(from, to)` for resolved absolute paths. -/
def pathRelative (fr toP : String) : String :=
  let p := dropCommon (pathSegs fr) (pathSegs toP)
  joinWith "/" (List.replicate p.1.length ".." ++ p.2)

/-- Model of POSIX `path.isAbsolute`: the first character is a slash. -/
def isAbsolutePath (p : String) : Bool :=
  match p.data with
  | [] => false
  | ch :: _ => ch == '/'

/-! ### Symbol extractor: `codeChunkingService.ts`, `extractCodeChunksFromFile` -/

/-- The pieces of an LSP `SymbolInformation` that the extractor reads: the
symbol name, the numeric `SymbolKind`, and the 0-based
`location.range.start.line` / `location.range.end.line`. -/
structure SymbolInfo where
  name : String
  kind : Nat
  startLine : Nat
  endLine : Nat
deriving DecidableEq, Repr

/-- The file content split into lines (`fileContent.split("\n")`). -/
def fileLines (fileContent : String) : List String :=
  splitOnChar ('\n') fileContent

/-- Model of `extractCodeForSymbol` (`codeChunkingService.ts`):
`lines.slice(startLine, endLine + 1).join("\n")` over the symbol's 0-based
line range. -/
def extractCodeForSymbol (fileContent : String) (s : SymbolInfo) : String :=
  let lines := fileLines fileContent
  joinWith "\n" ((lines.drop s.startLine).take (s.endLine + 1 - s.startLine))

/-- Chunk-type classification of `extractCodeChunksFromFile`
(`codeChunkingService.ts`): kind 5 is a class, kinds 11/10/26 are types,
everything else defaults to function. -/
def chunkTypeOfKind (kind : Nat) : ChunkType :=
  if kind = 5 then .cls
  else if kind = 11 ∨ kind = 10 ∨ kind = 26 then .typ
  else .function

/-- The symbol-name rejection test of `extractCodeChunksFromFile`
(`codeChunkingService.ts`): the name is falsy, trims to nothing, or matches
`/^[^a-zA-Z0-9_$]+$/` (non-empty and composed only of characters outside
letters, digits, underscore and dollar). -/
def isInvalidSymbolName (name : String) : Bool :=
  name == "" || jsTrim name == "" ||
    (name != "" && name.data.all (fun ch => !(ch.isAlphanum || ch == '_' || ch == '$')))

/-- Per-symbol body of the `symbols.map` in `extractCodeChunksFromFile`
(`codeChunkingService.ts`, lines 121-175): slice the symbol's code, classify
the kind, return `null` for an invalid name or for a code whose trimmed text
is shorter than 5 characters, else build the chunk with the relative file
path, the 0-based line span, and empty dependency lists. -/
def chunkOfSymbol (projectId relativeFilePath fileContent newId : String)
    (s : SymbolInfo) : Option CodeChunk :=
  let symbolCode := extractCodeForSymbol fileContent s
  let chunkType := chunkTypeOfKind s.kind
  if isInvalidSymbolName s.name then none
  else if (jsTrim symbolCode).length < 5 then none
  else
    some { id := newId
           projectId := projectId
           path := relativeFilePath
           code := symbolCode
           ctype := chunkType
           name := s.name
           lineStart := s.startLine
           lineEnd := s.endLine
           dependencies := []
           dependents := []
           embedding := none }

/-- The `symbols.map(..).filter(c => c !== null)` loop of
`extractCodeChunksFromFile`; `idGen i` stands for the `uuidv4()` call of the
i-th symbol. -/
def chunksOfSymbols (projectId relativeFilePath fileContent : String) (idGen : Nat → String) :
    Nat → List SymbolInfo → List CodeChunk
  | _, [] => []
  | i, s :: ss =>
    match chunkOfSymbol projectId relativeFilePath fileContent (idGen i) s with
    | some c => c :: chunksOfSymbols projectId relativeFilePath fileContent idGen (i + 1) ss
    | none => chunksOfSymbols projectId relativeFilePath fileContent idGen (i + 1) ss

/-- Model of `extractCodeChunksFromFile` (`codeChunkingService.ts`): empty
result for an empty file, for a file whose content fails the regex-based
`analyzeFileForCode` probe (`hasCode` is that probe's outcome, supplied as an
input), or for an empty symbol list; otherwise the per-symbol mapping, with
the chunk path computed as `path.relative(projectRoot, filePath)`. -/
def extractCodeChunksFromFile (projectId projectRoot filePath : String)
    (idGen : Nat → String) (fileContent : String) (hasCode : Bool)
    (symbols : List SymbolInfo) : List CodeChunk :=
  if jsTrim fileContent == "" then []
  else if !hasCode then []
  else if symbols.isEmpty then []
  else chunksOfSymbols projectId (pathRelative projectRoot filePath) fileContent idGen 0 symbols

theorem mem_chunksOfSymbols (projectId relativeFilePath fileContent : String)
    (idGen : Nat → String) (c : CodeChunk) :
    ∀ (i : Nat) (ss : List SymbolInfo),
      c ∈ chunksOfSymbols projectId relativeFilePath fileContent idGen i ss →
      ∃ s ∈ ss, ∃ j,
        chunkOfSymbol projectId relativeFilePath fileContent (idGen j) s = some c := by
  intro i ss
  induction ss generalizing i with
  | nil => intro h; simp [chunksOfSymbols] at h
  | cons s ss ih =>
    intro h
    rw [chunksOfSymbols] at h
    rcases hmatch : chunkOfSymbol projectId relativeFilePath fileContent (idGen i) s with
      _ | c0
    · rw [hmatch] at h
      obtain ⟨s2, hs2, j, hj⟩ := ih (i + 1) h
      exact ⟨s2, List.mem_cons_of_mem s hs2, j, hj⟩
    · rw [hmatch] at h
      rcases List.mem_cons.mp h with hc | hc
      · exact ⟨s, List.mem_cons_self s ss, i, by rw [hmatch, hc]⟩
      · obtain ⟨s2, hs2, j, hj⟩ := ih (i + 1) hc
        exact ⟨s2, List.mem_cons_of_mem s hs2, j, hj⟩

theorem chunkOfSymbol_some_fields (projectId relativeFilePath fileContent newId : String)
    (s : SymbolInfo) (c : CodeChunk)
    (h : chunkOfSymbol projectId relativeFilePath fileContent newId s = some c) :
    c.path = relativeFilePath ∧ c.lineStart = s.startLine ∧ c.lineEnd = s.endLine ∧
    c.code = extractCodeForSymbol fileContent s := by
  by_cases h1 : isInvalidSymbolName s.name
  · simp [chunkOfSymbol, h1] at h
  · by_cases h2 : (jsTrim (extractCodeForSymbol fileContent s)).length < 5
    · simp [chunkOfSymbol, h1, h2] at h
    · simp only [chunkOfSymbol, h1, h2, Bool.false_eq_true, if_false, if_neg,
        Option.some.injEq, reduceIte] at h
      rw [← h]
      exact ⟨rfl, rfl, rfl, rfl⟩

/-- Concrete three-line source file used in the extraction theorems. -/
def exFileFn : String := "function f() \x7b\n  return 1\n\x7d"

/-- Concrete function symbol spanning lines 0..2 of `exFileFn` (an LSP
symbol range is 0-based). -/
def exSymbolF : SymbolInfo := { name := "f", kind := 12, startLine := 0, endLine := 2 }

/-- C2 counterexample: extraction stores the LSP 0-based line numbers
verbatim, so the chunk for a symbol that starts on the first file line has
`lineStart = 0` — not a 1-based value — and its `code` is the 0-based
inclusive slice `lines[lineStart..lineEnd]` (here the whole three-line
file), not the 1-based slice the claim describes. -/
theorem extract_produces_zero_based_chunk :
    ∃ c ∈ extractCodeChunksFromFile "p" "/r" "/r/src/a.ts" (fun _ => "id-0")
        exFileFn true [exSymbolF],
      c.lineStart = 0 ∧ c.code = exFileFn := by decide

/-- C2 (amended): for symbols whose 0-based line range lies inside the file,
every produced chunk satisfies `lineStart ≤ lineEnd < number of lines`, with
both bounds 0-based inclusive, and its `code` is exactly the newline-join of
lines `lineStart` through `lineEnd` of the file in 0-based inclusive
indexing. -/
theorem extract_spans_zero_based (projectId projectRoot filePath : String)
    (idGen : Nat → String) (fileContent : String) (hasCode : Bool)
    (symbols : List SymbolInfo)
    (hsym : ∀ s ∈ symbols,
      s.startLine ≤ s.endLine ∧ s.endLine < (fileLines fileContent).length) :
    ∀ c ∈ extractCodeChunksFromFile projectId projectRoot filePath idGen
        fileContent hasCode symbols,
      c.lineStart ≤ c.lineEnd ∧ c.lineEnd < (fileLines fileContent).length ∧
      c.code = joinWith "\n"
        (((fileLines fileContent).drop c.lineStart).take (c.lineEnd + 1 - c.lineStart)) := by
  intro c hc
  unfold extractCodeChunksFromFile at hc
  split at hc
  · simp at hc
  · split at hc
    · simp at hc
    · split at hc
      · simp at hc
      · obtain ⟨s, hs, j, hj⟩ := mem_chunksOfSymbols _ _ _ _ c 0 symbols hc
        obtain ⟨_, hstart, hend, hcode⟩ := chunkOfSymbol_some_fields _ _ _ _ _ _ hj
        obtain ⟨hle, hlt⟩ := hsym s hs
        refine ⟨?_, ?_, ?_⟩
        · rw [hstart, hend]; exact hle
        · rw [hend]; exact hlt
        · rw [hcode, hstart, hend]; rfl

theorem extract_spans_zero_based_witness :
    (∀ s ∈ [exSymbolF],
      s.startLine ≤ s.endLine ∧ s.endLine < (fileLines exFileFn).length) ∧
    (∀ c ∈ extractCodeChunksFromFile "p" "/r" "/r/src/a.ts" (fun _ => "id-0")
        exFileFn true [exSymbolF],
      c.lineStart ≤ c.lineEnd ∧ c.lineEnd < (fileLines exFileFn).length ∧
      c.code = joinWith "\n"
        (((fileLines exFileFn).drop c.lineStart).take (c.lineEnd + 1 - c.lineStart))) :=
  ⟨by decide, extract_spans_zero_based "p" "/r" "/r/src/a.ts" (fun _ => "id-0")
    exFileFn true [exSymbolF] (by decide)⟩

/-- Concrete two-line source file with two one-line constants. -/
def exFileConsts : String := "const a = 1\nconst b = 2"

/-- Concrete variable symbol spanning only line 0 of `exFileConsts`. -/
def exSymbolA : SymbolInfo := { name := "a", kind := 13, startLine := 0, endLine := 0 }

/-- Concrete variable symbol named `_` spanning only line 0 of
`exFileConsts`. -/
def exSymbolUnderscore : SymbolInfo :=
  { name := "_", kind := 13, startLine := 0, endLine := 0 }

/-- C8 counterexample: a symbol whose span yields a single line of content
(fewer than 2) still produces a chunk, because the extractor's only length
gate is `trimmed code shorter than 5 characters`; and a symbol named `_`
(composed solely of non-alphanumeric characters) also produces a chunk,
because the rejection regex `/^[^a-zA-Z0-9_$]+$/` admits underscore and
dollar. -/
theorem degenerate_symbols_produce_chunks :
    exSymbolA.endLine + 1 - exSymbolA.startLine = 1 ∧
    (∃ c ∈ extractCodeChunksFromFile "p" "/r" "/r/src/a.ts" (fun _ => "id-0")
        exFileConsts true [exSymbolA],
      c.code = "const a = 1" ∧ c.lineStart = c.lineEnd) ∧
    (∃ c ∈ extractCodeChunksFromFile "p" "/r" "/r/src/a.ts" (fun _ => "id-0")
        exFileConsts true [exSymbolUnderscore],
      c.name = "_") := by decide

/-- C8 (amended): a symbol is discarded by extraction exactly when its name
is rejected — empty, whitespace-only, or made up entirely of characters
outside letters, digits, underscore and dollar — or when the trimmed text of
its extracted line span is shorter than 5 characters.  (The discard
conditions are by character count, not by a 2-line minimum.) -/
theorem chunkOfSymbol_none_iff (projectId relativeFilePath fileContent newId : String)
    (s : SymbolInfo) :
    chunkOfSymbol projectId relativeFilePath fileContent newId s = none ↔
      (isInvalidSymbolName s.name = true ∨
        (jsTrim (extractCodeForSymbol fileContent s)).length < 5) := by
  by_cases h1 : isInvalidSymbolName s.name
  · simp [chunkOfSymbol, h1]
  · by_cases h2 : (jsTrim (extractCodeForSymbol fileContent s)).length < 5
    · simp [chunkOfSymbol, h1, h2]
    · simp [chunkOfSymbol, h1, h2]

/-! Lemmas about the path model, used for the relative-path invariant. -/

theorem splitOnCharAux_no_sep (sep : Char) :
    ∀ (cs acc : List Char), sep ∉ acc →
      ∀ p ∈ splitOnCharAux sep acc cs, sep ∉ p.data := by
  intro cs
  induction cs with
  | nil =>
    intro acc hacc p hp
    simp only [splitOnCharAux, List.mem_singleton] at hp
    subst hp
    simpa using hacc
  | cons ch cs ih =>
    intro acc hacc p hp
    rw [splitOnCharAux] at hp
    by_cases hch : ch = sep
    · rw [if_pos hch] at hp
      rcases List.mem_cons.mp hp with hp | hp
      · subst hp; simpa using hacc
      · exact ih [] (by simp) p hp
    · rw [if_neg hch] at hp
      refine ih (ch :: acc) ?_ p hp
      simp only [List.mem_cons, not_or]
      exact ⟨fun h => hch h.symm, hacc⟩

theorem mem_pathSegs (p s : String) (hs : s ∈ pathSegs p) :
    s ≠ "" ∧ '/' ∉ s.data := by
  unfold pathSegs at hs
  obtain ⟨hmem, hne⟩ := List.mem_filter.mp hs
  refine ⟨by simpa using hne, ?_⟩
  exact splitOnCharAux_no_sep ('/') p.data [] (by simp) s hmem

theorem dropCommon_self_append : ∀ (l r : List String), dropCommon l (l ++ r) = ([], r) := by
  intro l
  induction l with
  | nil =>
    intro r
    cases r with
    | nil => rfl
    | cons b bs => rfl
  | cons a as ih =>
    intro r
    simp only [List.cons_append, dropCommon, if_pos rfl, reduceIte]
    exact ih r

theorem splitOnCharAux_word (sep : Char) :
    ∀ (w acc rest : List Char), sep ∉ w →
      splitOnCharAux sep acc (w ++ rest) = splitOnCharAux sep (w.reverse ++ acc) rest := by
  intro w
  induction w with
  | nil => intro acc rest _; simp
  | cons c w ih =>
    intro acc rest hw
    simp only [List.mem_cons, not_or] at hw
    rw [List.cons_append, splitOnCharAux, if_neg (fun h : c = sep => hw.1 h.symm)]
    rw [ih (c :: acc) rest hw.2]
    simp

theorem splitOnChar_joinWith :
    ∀ (pieces : List String), pieces ≠ [] →
      (∀ p ∈ pieces, '/' ∉ p.data) →
      splitOnChar ('/') (joinWith "/" pieces) = pieces := by
  intro pieces
  induction pieces with
  | nil => intro h; exact absurd rfl h
  | cons s ss ih =>
    intro _ hno
    have hs : '/' ∉ s.data := hno s (List.mem_cons_self s ss)
    cases ss with
    | nil =>
      show splitOnCharAux _ [] s.data = [s]
      have := splitOnCharAux_word ('/') s.data [] [] (by simpa using hs)
      simp only [List.append_nil] at this
      rw [this]
      simp [splitOnCharAux]
    | cons t ts =>
      have hdata : (joinWith "/" (s :: t :: ts)).data
          = s.data ++ ('/' :: (joinWith "/" (t :: ts)).data) := by
        show (s ++ "/" ++ joinWith "/" (t :: ts)).data = _
        simp [String.data_append]
      show splitOnCharAux _ [] (joinWith "/" (s :: t :: ts)).data = s :: t :: ts
      rw [hdata, splitOnCharAux_word ('/') s.data [] _ (by simpa using hs)]
      rw [splitOnCharAux]
      simp only [if_pos rfl, reduceIte, List.append_nil, List.reverse_reverse]
      have hrec := ih (by simp) (fun p hp => hno p (List.mem_cons_of_mem s hp))
      rw [show splitOnChar ('/') (joinWith "/" (t :: ts))
            = splitOnCharAux ('/') [] (joinWith "/" (t :: ts)).data from rfl] at hrec
      rw [hrec]

theorem pathSegs_joinWith (pieces : List String)
    (hne : ∀ p ∈ pieces, p ≠ "") (hno : ∀ p ∈ pieces, '/' ∉ p.data) :
    pathSegs (joinWith "/" pieces) = pieces := by
  cases pieces with
  | nil => decide
  | cons s ss =>
    unfold pathSegs
    rw [splitOnChar_joinWith (s :: ss) (by simp) hno]
    rw [List.filter_eq_self.mpr]
    intro a ha
    simpa using hne a ha

theorem isAbsolutePath_joinWith (pieces : List String)
    (hne : ∀ p ∈ pieces, p ≠ "") (hno : ∀ p ∈ pieces, '/' ∉ p.data) :
    isAbsolutePath (joinWith "/" pieces) = false := by
  cases pieces with
  | nil => decide
  | cons s ss =>
    have hsne : s ≠ "" := hne s (List.mem_cons_self s ss)
    have hsno : '/' ∉ s.data := hno s (List.mem_cons_self s ss)
    have hdata : ∃ rest, (joinWith "/" (s :: ss)).data = s.data ++ rest := by
      cases ss with
      | nil => exact ⟨[], by simp [joinWith]⟩
      | cons t ts =>
        refine ⟨'/' :: (joinWith "/" (t :: ts)).data, ?_⟩
        show (s ++ "/" ++ joinWith "/" (t :: ts)).data = _
        simp [String.data_append]
    obtain ⟨rest, hdata⟩ := hdata
    unfold isAbsolutePath
    rw [hdata]
    cases hs : s.data with
    | nil =>
      exact absurd (String.ext (hs.trans rfl)) hsne
    | cons c cs =>
      rw [hs] at hsno
      simp only [List.mem_cons, not_or] at hsno
      simp only [List.cons_append]
      rw [beq_eq_false_iff_ne]
      exact fun h => hsno.1 h.symm

/-- C7 (amended): every chunk produced by the symbol extractor of
`codeChunkingService.ts` carries `path.relative(projectRoot, filePath)` as
its path; when the file lies under the project root (its resolved segments
extend the root's and contain no `..`), that path is never absolute and
contains no `..` segment, so it cannot escape the project root. -/
theorem extract_paths_relative_under_root (projectId projectRoot filePath : String)
    (idGen : Nat → String) (fileContent : String) (hasCode : Bool)
    (symbols : List SymbolInfo) (rest : List String)
    (hroot : pathSegs filePath = pathSegs projectRoot ++ rest)
    (hdd : (".." : String) ∉ pathSegs filePath) :
    ∀ c ∈ extractCodeChunksFromFile projectId projectRoot filePath idGen
        fileContent hasCode symbols,
      isAbsolutePath c.path = false ∧ (".." : String) ∉ pathSegs c.path := by
  intro c hc
  unfold extractCodeChunksFromFile at hc
  split at hc
  · simp at hc
  · split at hc
    · simp at hc
    · split at hc
      · simp at hc
      · obtain ⟨s, _, j, hj⟩ := mem_chunksOfSymbols _ _ _ _ c 0 symbols hc
        obtain ⟨hpath, _, _, _⟩ := chunkOfSymbol_some_fields _ _ _ _ _ _ hj
        have hrel : pathRelative projectRoot filePath = joinWith "/" rest := by
          unfold pathRelative
          rw [hroot, dropCommon_self_append]
          simp
        have hrestne : ∀ p ∈ rest, p ≠ "" := by
          intro p hp
          exact (mem_pathSegs filePath p (hroot ▸ List.mem_append_right _ hp)).1
        have hrestno : ∀ p ∈ rest, '/' ∉ p.data := by
          intro p hp
          exact (mem_pathSegs filePath p (hroot ▸ List.mem_append_right _ hp)).2
        rw [hpath, hrel]
        refine ⟨isAbsolutePath_joinWith rest hrestne hrestno, ?_⟩
        rw [pathSegs_joinWith rest hrestne hrestno]
        intro hmem
        exact hdd (hroot ▸ List.mem_append_right _ hmem)

theorem extract_paths_relative_under_root_witness :
    pathSegs "/home/u/proj/src/a.ts" = pathSegs "/home/u/proj" ++ ["src", "a.ts"] ∧
    (".." : String) ∉ pathSegs "/home/u/proj/src/a.ts" ∧
    (∀ c ∈ extractCodeChunksFromFile "p" "/home/u/proj" "/home/u/proj/src/a.ts"
        (fun _ => "id-0") exFileFn true [exSymbolF],
      isAbsolutePath c.path = false ∧ (".." : String) ∉ pathSegs c.path) :=
  ⟨by decide, by decide,
   extract_paths_relative_under_root "p" "/home/u/proj" "/home/u/proj/src/a.ts"
     (fun _ => "id-0") exFileFn true [exSymbolF] ["src", "a.ts"] (by decide) (by decide)⟩

/-! ### The LSP-based draft extractor of part_000 (lines 1052-1113) -/

/-- Per-symbol chunk construction of the third `CodeChunkingService` draft in
part_000 (lines 1070-1108): symbols of kinds 5/12/6/11/26/13 each yield a
chunk whose `path` is the `filePath` argument stored verbatim (not
relativized); `isFunctionVariable` and `analyzeDependencies` stand for that
draft's regex helpers. -/
def chunkOfSymbolV3 (projectId filePath fileContent newId : String)
    (isFunctionVariable : String → Bool) (analyzeDependencies : String → List String)
    (s : SymbolInfo) : Option CodeChunk :=
  if s.kind = 5 ∨ s.kind = 12 ∨ s.kind = 6 ∨ s.kind = 11 ∨ s.kind = 26 ∨ s.kind = 13 then
    let code := joinWith "\n"
      (((fileLines fileContent).drop s.startLine).take (s.endLine + 1 - s.startLine))
    let ctype : ChunkType :=
      if s.kind = 5 then .cls
      else if s.kind = 12 ∨ s.kind = 6 then .function
      else if s.kind = 11 ∨ s.kind = 26 then .typ
      else if isFunctionVariable code then .function
      else .constant
    some { id := newId
           projectId := projectId
           path := filePath
           code := code
           ctype := ctype
           name := s.name
           lineStart := s.startLine
           lineEnd := s.endLine
           dependencies := analyzeDependencies code
           dependents := []
           embedding := none }
  else none

/-- The symbol loop of the part_000 draft extractor (lines 1065-1109). -/
def chunksOfSymbolsV3 (projectId filePath fileContent : String) (idGen : Nat → String)
    (isFunctionVariable : String → Bool) (analyzeDependencies : String → List String) :
    Nat → List SymbolInfo → List CodeChunk
  | _, [] => []
  | i, s :: ss =>
    match chunkOfSymbolV3 projectId filePath fileContent (idGen i)
        isFunctionVariable analyzeDependencies s with
    | some c => c :: chunksOfSymbolsV3 projectId filePath fileContent idGen
        isFunctionVariable analyzeDependencies (i + 1) ss
    | none => chunksOfSymbolsV3 projectId filePath fileContent idGen
        isFunctionVariable analyzeDependencies (i + 1) ss

/-- Model of the part_000 draft `extractCodeChunksFromFile`
(lines 1052-1113): empty on an empty symbol list, else the symbol loop. -/
def extractCodeChunksFromFileV3 (projectId filePath : String) (idGen : Nat → String)
    (fileContent : String) (isFunctionVariable : String → Bool)
    (analyzeDependencies : String → List String) (symbols : List SymbolInfo) :
    List CodeChunk :=
  if symbols.isEmpty then []
  else chunksOfSymbolsV3 projectId filePath fileContent idGen
    isFunctionVariable analyzeDependencies 0 symbols

/-- C7 counterexample: the LSP-based draft chunk builder of part_000 stores
the file path it was invoked with verbatim as the chunk path, so a chunk
built from an absolute file path (as in the `chunkFile` flow) has an
absolute — not project-relative — path. -/
theorem lspDraft_stores_absolute_path :
    ∃ c ∈ extractCodeChunksFromFileV3 "p" "/home/u/proj/src/a.ts" (fun _ => "id-0")
        exFileFn (fun _ => false) (fun _ => []) [exSymbolF],
      isAbsolutePath c.path = true := by decide

/-! ### Embedding requestor: `embeddingService.ts` and the orchestrator's
assignment loop -/

/-- Iterations of the batch-splitting loop of `generateBatchEmbeddings`: each
step takes `texts.slice(i, i + batchSize)` and advances by `batchSize`.  The
`fuel` argument only bounds the number of iterations so that the recursion is
structural; `batchSlices` supplies the list length as fuel, which is enough
for any positive batch size. -/
def batchSlicesGo (batchSize : Nat) : Nat → List α → List (List α)
  | _, [] => []
  | 0, _ :: _ => []
  | fuel + 1, x :: xs =>
    (x :: xs).take batchSize :: batchSlicesGo batchSize fuel (xs.drop (batchSize - 1))

/-- The batch-splitting loop of `generateBatchEmbeddings`
(`embeddingService.ts`): `for (i = 0; i < texts.length; i += batchSize)
batches.push(texts.slice(i, i + batchSize))`. -/
def batchSlices (batchSize : Nat) (l : List α) : List (List α) :=
  batchSlicesGo batchSize l.length l

/-- Model of `generateBatchEmbeddings` (`embeddingService.ts`, the variant at
lines 151-195): empty input gives an empty result; the texts are first
filtered down to the non-empty ones (`texts.filter(t => t && t.length > 0)`),
then cut into batches of 300 and submitted; `embed` stands for one API call
(`openai.embeddings.create` followed by `response.data.map(item =>
item.embedding)`), and the per-batch results are flattened in order. -/
def generateBatchEmbeddings (embed : List String → List (List Int))
    (texts : List String) : List (List Int) :=
  if texts.isEmpty then []
  else
    let validTexts := texts.filter (fun t => 0 < t.length)
    if validTexts.isEmpty then []
    else ((batchSlices 300 validTexts).map embed).flatten

/-- The vector-assignment loop of `generateEmbeddingsForChunks`
(`codeChunkingService.ts`): `for (i = 0; i < chunks.length; i++)
chunks[i].embedding = embeddings[i]` — an out-of-range index reads
`undefined`, modelled as `none`. -/
def assignEmbeddings (embeddings : List (List Int)) : Nat → List CodeChunk → List CodeChunk
  | _, [] => []
  | i, c :: cs => { c with embedding := embeddings[i]? } :: assignEmbeddings embeddings (i + 1) cs

/-- Model of `generateEmbeddingsForChunks` (`codeChunkingService.ts`, also
part_000 lines 326-352): preprocess every chunk's code (`pre` stands for
`preprocessCodeForEmbedding`), request the batch embeddings, and assign the
returned vectors back by position. -/
def generateEmbeddingsForChunks (pre : String → String)
    (embed : List String → List (List Int)) (chunks : List CodeChunk) : List CodeChunk :=
  let preprocessedCodes := chunks.map (fun c => pre c.code)
  let embeddings := generateBatchEmbeddings embed preprocessedCodes
  assignEmbeddings embeddings 0 chunks

theorem batchSlicesGo_flatten (batchSize : Nat) (hbs : 0 < batchSize) :
    ∀ (fuel : Nat) (l : List α), l.length ≤ fuel →
      (batchSlicesGo batchSize fuel l).flatten = l := by
  intro fuel
  induction fuel with
  | zero =>
    intro l hl
    have : l = [] := List.eq_nil_of_length_eq_zero (Nat.le_zero.mp hl)
    subst this
    rfl
  | succ fuel ih =>
    intro l hl
    cases l with
    | nil => rfl
    | cons x xs =>
      rw [batchSlicesGo, List.flatten_cons]
      rw [ih (xs.drop (batchSize - 1)) (by simp at hl ⊢; omega)]
      have hdrop : (x :: xs).drop batchSize = xs.drop (batchSize - 1) := by
        cases batchSize with
        | zero => exact absurd hbs (by simp)
        | succ k => simp
      rw [← hdrop, List.take_append_drop]

theorem batchSlices_flatten (batchSize : Nat) (hbs : 0 < batchSize) :
    ∀ l : List α, (batchSlices batchSize l).flatten = l := by
  intro l
  exact batchSlicesGo_flatten batchSize hbs l.length l (Nat.le_refl _)

/-- The chunks-to-texts preprocessing map of `generateEmbeddingsForChunks`. -/
def preprocessedTexts (pre : String → String) (chunks : List CodeChunk) : List String :=
  chunks.map (fun c => pre c.code)

theorem assignEmbeddings_map (g : CodeChunk → List Int) :
    ∀ (cs pref : List CodeChunk),
      assignEmbeddings ((pref ++ cs).map g) pref.length cs
        = cs.map (fun c => { c with embedding := some (g c) }) := by
  intro cs
  induction cs with
  | nil => intro pref; rfl
  | cons c cs ih =>
    intro pref
    rw [assignEmbeddings]
    have hget : ((pref ++ c :: cs).map g)[pref.length]? = some (g c) := by
      rw [List.getElem?_map, List.getElem?_append_right (Nat.le_refl _)]
      simp
    rw [hget, List.map_cons]
    have hpref := ih (pref ++ [c])
    simp only [List.length_append, List.length_singleton, List.append_assoc,
      List.singleton_append] at hpref
    rw [← hpref]

/-- C3 (amended): provided the embedding collaborator answers each batch with
one vector per input in order (`embed b = b.map f`) and every preprocessed
chunk text is non-empty, the batch-embedding call returns exactly one vector
per chunk in submission order, and the assignment loop gives every chunk the
embedding of its own preprocessed code.  When some preprocessed text is
empty, the pre-batching filter drops it and the alignment breaks (see the
counterexample). -/
theorem generateEmbeddings_aligned_when_nonempty (f : String → List Int)
    (embed : List String → List (List Int)) (pre : String → String)
    (chunks : List CodeChunk)
    (hembed : ∀ b, embed b = b.map f)
    (hne : ∀ c ∈ chunks, 0 < (pre c.code).length) :
    (generateBatchEmbeddings embed (preprocessedTexts pre chunks)).length
      = chunks.length ∧
    generateEmbeddingsForChunks pre embed chunks
      = chunks.map (fun c => { c with embedding := some (f (pre c.code)) }) := by
  have hBE : generateBatchEmbeddings embed (preprocessedTexts pre chunks)
      = (preprocessedTexts pre chunks).map f := by
    unfold generateBatchEmbeddings
    by_cases hempty : (preprocessedTexts pre chunks).isEmpty
    · rw [if_pos hempty]
      have : preprocessedTexts pre chunks = [] := by simpa [List.isEmpty_iff] using hempty
      rw [this]; rfl
    · rw [if_neg hempty]
      have hfilter : (preprocessedTexts pre chunks).filter (fun t => 0 < t.length)
          = preprocessedTexts pre chunks := by
        rw [List.filter_eq_self]
        intro t ht
        obtain ⟨c, hc, hct⟩ := List.mem_map.mp ht
        simpa [← hct] using hne c hc
      simp only [hfilter]
      rw [if_neg hempty]
      have hmap : (batchSlices 300 (preprocessedTexts pre chunks)).map embed
          = (batchSlices 300 (preprocessedTexts pre chunks)).map (List.map f) := by
        apply List.map_congr_left
        intro b _
        exact hembed b
      rw [hmap, ← List.map_flatten, batchSlices_flatten 300 (by omega)]
  constructor
  · rw [hBE]
    simp [preprocessedTexts]
  · show assignEmbeddings (generateBatchEmbeddings embed (preprocessedTexts pre chunks))
        0 chunks = _
    rw [hBE]
    have : (preprocessedTexts pre chunks).map f
        = chunks.map (fun c => f (pre c.code)) := by
      simp [preprocessedTexts, List.map_map]
    rw [this]
    have h0 := assignEmbeddings_map (fun c => f (pre c.code)) chunks []
    simpa using h0

/-- A same-length, same-order embedding collaborator mapping each text to the
one-entry vector holding its length. -/
def exEmbed : List String → List (List Int) := fun b => b.map (fun s => [(s.length : Int)])

/-- Concrete chunk whose preprocessed code is empty (as happens for a
comment-only code span after comment stripping). -/
def exChunkEmptyCode : CodeChunk :=
  { id := "c0", projectId := "p", path := "a.ts", code := "", ctype := .function,
    name := "f", lineStart := 0, lineEnd := 0, dependencies := [], dependents := [],
    embedding := none }

/-- Concrete chunk with the non-empty preprocessed code `abcde`. -/
def exChunkAbcde : CodeChunk :=
  { id := "c1", projectId := "p", path := "a.ts", code := "abcde", ctype := .function,
    name := "g", lineStart := 1, lineEnd := 1, dependencies := [], dependents := [],
    embedding := none }

/-- C3 counterexample: with an embedding collaborator that does answer one
vector per submitted input in order (`exEmbed`), submitting the two
preprocessed texts `["", "abcde"]` returns only one vector — the pre-batching
filter drops the empty text — so the result does not have the length of the
submitted list; the assignment loop then gives the first chunk the embedding
of the second chunk's text (`[5]`, not its own `[0]`) and the second chunk no
embedding at all. -/
theorem batchEmbeddings_misaligned_on_empty_text :
    (generateBatchEmbeddings exEmbed ["", "abcde"]).length = 1 ∧
    (generateEmbeddingsForChunks (fun s => s) exEmbed
        [exChunkEmptyCode, exChunkAbcde]).map (fun c => c.embedding)
      = [some [5], none] ∧
    exEmbed [""] = [[0]] := by
  refine ⟨?_, ?_, ?_⟩ <;> decide

theorem generateEmbeddings_aligned_when_nonempty_witness :
    (generateBatchEmbeddings exEmbed (preprocessedTexts (fun s => s) [exChunkAbcde])).length
      = ([exChunkAbcde] : List CodeChunk).length ∧
    generateEmbeddingsForChunks (fun s => s) exEmbed [exChunkAbcde]
      = [exChunkAbcde].map
          (fun c => { c with embedding := some [(((fun s => s) c.code).length : Int)] }) :=
  generateEmbeddings_aligned_when_nonempty (fun s => [(s.length : Int)]) exEmbed
    (fun s => s) [exChunkAbcde] (fun _ => rfl) (by decide)

/-! ### Dependency graph reconciler: part_000 `processChunkDependencies` -/

/-- The `nameToChunkMap` of `processChunkDependencies` (part_000, lines
420-424): `Map.set` applied in list order means the last chunk with a given
name wins.  Names and ids never change during the pass, so the map is
modelled as the index of that chunk in the array — the index stands for the
live object reference held by the JavaScript `Map`. -/
def lastIdxOfName : List CodeChunk → String → Option Nat
  | [], _ => none
  | c :: cs, d =>
    match lastIdxOfName cs d with
    | some j => some (j + 1)
    | none => if c.name = d then some 0 else none

/-- One iteration of the inner dependency loop of `processChunkDependencies`
(part_000, lines 430-440): look the name up in the map; when a target chunk
exists and `targetChunk.id !== chunk.id`, push the name onto `resolvedDeps`
and append the current chunk's name to the target's `dependents` unless
already present.  The pair carries the mutated chunk array and the
`resolvedDeps` accumulator. -/
def resolveDepStep (tmap : String → Option Nat) (cid cname : String)
    (p : List CodeChunk × List String) (d : String) : List CodeChunk × List String :=
  match tmap d with
  | none => p
  | some t =>
    match p.1[t]? with
    | none => p
    | some tc =>
      if tc.id = cid then p
      else
        (if cname ∈ tc.dependents then p.1
         else p.1.set t { tc with dependents := tc.dependents ++ [cname] },
         p.2 ++ [d])

/-- The inner loop of `processChunkDependencies` over one chunk's raw
dependency names. -/
def resolveDeps (tmap : String → Option Nat) (cid cname : String)
    (deps : List String) (st : List CodeChunk) : List CodeChunk × List String :=
  deps.foldl (resolveDepStep tmap cid cname) (st, [])

/-- One iteration of the outer loop of `processChunkDependencies`: run the
inner loop on the chunk's current dependency list, then overwrite its
`dependencies` with the resolved list (`chunk.dependencies = resolvedDeps`). -/
def resolveStep (tmap : String → Option Nat) (st : List CodeChunk) (i : Nat) :
    List CodeChunk :=
  match st[i]? with
  | none => st
  | some c =>
    let p := resolveDeps tmap c.id c.name c.dependencies st
    match p.1[i]? with
    | none => p.1
    | some ci => p.1.set i { ci with dependencies := p.2 }

/-- Model of `processChunkDependencies` (part_000, lines 417-446): build the
name map once over the input array, then process every chunk in order. -/
def processChunkDependencies (chunks : List CodeChunk) : List CodeChunk :=
  (List.range chunks.length).foldl (resolveStep (lastIdxOfName chunks)) chunks

/-- Helper for concrete reconciliation examples. -/
def mkChunk (id name : String) (deps : List String) : CodeChunk :=
  { id := id, projectId := "p", path := id ++ ".ts", code := "code of " ++ name,
    ctype := .function, name := name, lineStart := 0, lineEnd := 1,
    dependencies := deps, dependents := [], embedding := none }

/-- C1 counterexample: with two chunks both named `f` (the same symbol name
in two files — permitted, since only `(path, name)` is unique) and a chunk
`g` depending on `f`, the name map keeps only the last `f`; after the pass,
`f ∈ g.dependencies` holds while `g` was appended only to the dependents of
the second `f`, so for the first `f` the claimed biconditional fails. -/
theorem dependents_not_transpose_of_dependencies :
    ¬ (∀ a ∈ processChunkDependencies [mkChunk "1" "f" [], mkChunk "2" "f" [],
          mkChunk "3" "g" ["f"]],
        ∀ b ∈ processChunkDependencies [mkChunk "1" "f" [], mkChunk "2" "f" [],
          mkChunk "3" "g" ["f"]],
          (b.name ∈ a.dependencies ↔ a.name ∈ b.dependents)) := by decide

/-- Resolution test of the reconciler, read off the base array: a raw
dependency name `d` of a chunk with id `cid` is kept exactly when the name
map has an entry for `d` whose chunk has a different id. -/
def keepDepB (chunks : List CodeChunk) (cid : String) (d : String) : Bool :=
  match lastIdxOfName chunks d with
  | none => false
  | some t =>
    match chunks[t]? with
    | none => false
    | some tc => tc.id != cid

/-- Membership of `nm` in the dependents of the chunk at position `j`. -/
def depMem (l : List CodeChunk) (j : Nat) (nm : String) : Prop :=
  ∃ x, l[j]? = some x ∧ nm ∈ x.dependents

/-- The mutated array keeps the ids of the base array at every position. -/
def idsEq (chunks st : List CodeChunk) : Prop :=
  ∀ j : Nat, st[j]?.map CodeChunk.id = chunks[j]?.map CodeChunk.id

theorem lastIdxOfName_lt :
    ∀ (l : List CodeChunk) (d : String) (t : Nat),
      lastIdxOfName l d = some t → t < l.length := by
  intro l
  induction l with
  | nil => intro d t h; simp [lastIdxOfName] at h
  | cons c cs ih =>
    intro d t h
    rw [lastIdxOfName] at h
    rcases hcs : lastIdxOfName cs d with _ | j
    · rw [hcs] at h
      by_cases hc : c.name = d
      · rw [if_pos hc] at h
        simp only [Option.some.injEq] at h
        subst h
        simp
      · rw [if_neg hc] at h; simp at h
    · rw [hcs] at h
      simp only [Option.some.injEq] at h
      have := ih d j hcs
      simp only [List.length_cons]
      omega

theorem lastIdxOfName_name :
    ∀ (l : List CodeChunk) (d : String) (t : Nat),
      lastIdxOfName l d = some t → ∃ tc, l[t]? = some tc ∧ tc.name = d := by
  intro l
  induction l with
  | nil => intro d t h; simp [lastIdxOfName] at h
  | cons c cs ih =>
    intro d t h
    rw [lastIdxOfName] at h
    rcases hcs : lastIdxOfName cs d with _ | j
    · rw [hcs] at h
      by_cases hc : c.name = d
      · rw [if_pos hc] at h
        simp only [Option.some.injEq] at h
        subst h
        exact ⟨_, by simp, hc⟩
      · rw [if_neg hc] at h; simp at h
    · rw [hcs] at h
      simp only [Option.some.injEq] at h
      obtain ⟨tc, htc, hname⟩ := ih d j hcs
      subst h
      exact ⟨tc, by simpa using htc, hname⟩

theorem lastIdxOfName_eq_some (l : List CodeChunk)
    (hnd : l.Pairwise (fun a b => a.name ≠ b.name)) :
    ∀ (t : Nat) (tc : CodeChunk), l[t]? = some tc →
      lastIdxOfName l tc.name = some t := by
  induction l with
  | nil => intro t tc h; simp at h
  | cons c cs ih =>
    intro t tc h
    have hhead : ∀ x ∈ cs, c.name ≠ x.name := (List.pairwise_cons.mp hnd).1
    have htail : cs.Pairwise (fun a b => a.name ≠ b.name) := (List.pairwise_cons.mp hnd).2
    cases t with
    | zero =>
      simp only [List.getElem?_cons_zero, Option.some.injEq] at h
      rw [← h]
      rw [lastIdxOfName]
      have hnone : lastIdxOfName cs c.name = none := by
        rcases hcs : lastIdxOfName cs c.name with _ | j
        · rfl
        · obtain ⟨x, hx, hxname⟩ := lastIdxOfName_name cs c.name j hcs
          have hmem : x ∈ cs := by
            rcases List.getElem?_eq_some_iff.mp hx with ⟨hj, hget⟩
            exact hget ▸ List.getElem_mem hj
          exact absurd hxname.symm (hhead x hmem)
      rw [hnone, if_pos rfl]
    | succ j =>
      simp only [List.getElem?_cons_succ] at h
      rw [lastIdxOfName, ih htail j tc h]

theorem idsEq_length (chunks st : List CodeChunk) (h : idsEq chunks st) :
    st.length = chunks.length := by
  by_contra hne
  rcases Nat.lt_or_ge st.length chunks.length with hlt | hge
  · have h1 : st[st.length]? = none := List.getElem?_eq_none (Nat.le_refl _)
    have h2 : chunks[st.length]? ≠ none := by
      rw [ne_eq, List.getElem?_eq_none_iff]
      omega
    have := h st.length
    rw [h1] at this
    rcases hc : chunks[st.length]? with _ | x
    · exact h2 hc
    · rw [hc] at this; simp at this
  · have hlt2 : chunks.length < st.length := by omega
    have h1 : chunks[chunks.length]? = none := List.getElem?_eq_none (Nat.le_refl _)
    have h2 : st[chunks.length]? ≠ none := by
      rw [ne_eq, List.getElem?_eq_none_iff]
      omega
    have := h chunks.length
    rw [h1] at this
    rcases hc : st[chunks.length]? with _ | x
    · exact h2 hc
    · rw [hc] at this; simp at this

theorem resolveDepsAux_spec (chunks : List CodeChunk) (cid cname : String) :
    ∀ (ds : List String) (st st2 : List CodeChunk) (acc res : List String),
      idsEq chunks st →
      ds.foldl (resolveDepStep (lastIdxOfName chunks) cid cname) (st, acc) = (st2, res) →
      idsEq chunks st2 ∧
      res = acc ++ ds.filter (keepDepB chunks cid) ∧
      (∀ j : Nat, st2[j]?.map CodeChunk.name = st[j]?.map CodeChunk.name) ∧
      (∀ j : Nat, st2[j]?.map CodeChunk.dependencies = st[j]?.map CodeChunk.dependencies) ∧
      (∀ (j : Nat) (nm : String),
        depMem st2 j nm ↔
          (depMem st j nm ∨
            (nm = cname ∧ ∃ d ∈ ds, lastIdxOfName chunks d = some j ∧
              keepDepB chunks cid d = true))) := by
  intro ds
  induction ds with
  | nil =>
    intro st st2 acc res hids heq
    simp only [List.foldl_nil, Prod.mk.injEq] at heq
    obtain ⟨h1, h2⟩ := heq
    subst h1; subst h2
    exact ⟨hids, by simp, fun _ => rfl, fun _ => rfl, fun j nm => by simp⟩
  | cons d ds ih =>
    intro st st2 acc res hids heq
    rw [List.foldl_cons] at heq
    rcases htm : lastIdxOfName chunks d with _ | t
    · -- no entry in the name map: the step is a no-op and the name is dropped
      have hstep : resolveDepStep (lastIdxOfName chunks) cid cname (st, acc) d = (st, acc) := by
        simp [resolveDepStep, htm]
      have hkeep : keepDepB chunks cid d = false := by
        simp [keepDepB, htm]
      rw [hstep] at heq
      obtain ⟨h1, h2, h3, h4, h5⟩ := ih st st2 acc res hids heq
      refine ⟨h1, ?_, h3, h4, ?_⟩
      · rw [h2]
        simp [List.filter_cons, hkeep]
      · intro j nm
        rw [h5 j nm]
        have hsame : (∃ d2 ∈ ds, lastIdxOfName chunks d2 = some j ∧
              keepDepB chunks cid d2 = true)
            ↔ (∃ d2 ∈ d :: ds, lastIdxOfName chunks d2 = some j ∧
              keepDepB chunks cid d2 = true) := by
          constructor
          · rintro ⟨d2, hd2, hP⟩
            exact ⟨d2, List.mem_cons_of_mem _ hd2, hP⟩
          · rintro ⟨d2, hd2, hP⟩
            rcases List.mem_cons.mp hd2 with rfl | hd2
            · rw [hkeep] at hP
              exact absurd hP.2 (by simp)
            · exact ⟨d2, hd2, hP⟩
        rw [← hsame]
    · -- the name resolves to the chunk at position t
      have hbound := lastIdxOfName_lt chunks d t htm
      have hlen : st.length = chunks.length := idsEq_length chunks st hids
      rcases hst : st[t]? with _ | tc
      · exfalso
        have := List.getElem?_eq_none_iff.mp hst
        omega
      · have htlt : t < st.length := (List.getElem?_eq_some_iff.mp hst).1
        obtain ⟨ctc, hctc, hcid⟩ : ∃ ctc, chunks[t]? = some ctc ∧ ctc.id = tc.id := by
          have hmi := hids t
          rw [hst] at hmi
          rcases hc : chunks[t]? with _ | ctc
          · rw [hc] at hmi; simp at hmi
          · rw [hc] at hmi
            simp only [Option.map_some', Option.some.injEq] at hmi
            exact ⟨ctc, rfl, hmi.symm⟩
        by_cases hid : tc.id = cid
        · -- self reference (same id): no-op, name dropped
          have hstep : resolveDepStep (lastIdxOfName chunks) cid cname (st, acc) d
              = (st, acc) := by
            simp [resolveDepStep, htm, hst, hid]
          have hkeep : keepDepB chunks cid d = false := by
            simp [keepDepB, htm, hctc, bne, hcid, hid]
          rw [hstep] at heq
          obtain ⟨h1, h2, h3, h4, h5⟩ := ih st st2 acc res hids heq
          refine ⟨h1, ?_, h3, h4, ?_⟩
          · rw [h2]
            simp [List.filter_cons, hkeep]
          · intro j nm
            rw [h5 j nm]
            have hsame : (∃ d2 ∈ ds, lastIdxOfName chunks d2 = some j ∧
                  keepDepB chunks cid d2 = true)
                ↔ (∃ d2 ∈ d :: ds, lastIdxOfName chunks d2 = some j ∧
                  keepDepB chunks cid d2 = true) := by
              constructor
              · rintro ⟨d2, hd2, hP⟩
                exact ⟨d2, List.mem_cons_of_mem _ hd2, hP⟩
              · rintro ⟨d2, hd2, hP⟩
                rcases List.mem_cons.mp hd2 with rfl | hd2
                · rw [hkeep] at hP
                  exact absurd hP.2 (by simp)
                · exact ⟨d2, hd2, hP⟩
            rw [← hsame]
        · -- genuine dependency: the name is kept
          have hkeep : keepDepB chunks cid d = true := by
            simp [keepDepB, htm, hctc, bne, hcid, hid]
          by_cases hdeps : cname ∈ tc.dependents
          · -- dependent already recorded: array unchanged
            have hstep : resolveDepStep (lastIdxOfName chunks) cid cname (st, acc) d
                = (st, acc ++ [d]) := by
              simp [resolveDepStep, htm, hst, hid, hdeps]
            rw [hstep] at heq
            obtain ⟨h1, h2, h3, h4, h5⟩ := ih st st2 (acc ++ [d]) res hids heq
            refine ⟨h1, ?_, h3, h4, ?_⟩
            · rw [h2]
              simp [List.filter_cons, hkeep]
            · intro j nm
              rw [h5 j nm]
              constructor
              · rintro (h | ⟨hc, d2, hd2, hP⟩)
                · exact Or.inl h
                · exact Or.inr ⟨hc, d2, List.mem_cons_of_mem _ hd2, hP⟩
              · rintro (h | ⟨hc, d2, hd2, hP⟩)
                · exact Or.inl h
                · rcases List.mem_cons.mp hd2 with rfl | hd2
                  · left
                    have hjt : t = j := by
                      rw [htm] at hP
                      exact Option.some.inj hP.1
                    exact ⟨tc, by rw [← hjt]; exact hst, by rw [hc]; exact hdeps⟩
                  · exact Or.inr ⟨hc, d2, hd2, hP⟩
          · -- append the current chunk's name to the target's dependents
            have hstep : resolveDepStep (lastIdxOfName chunks) cid cname (st, acc) d
                = (st.set t { tc with dependents := tc.dependents ++ [cname] },
                   acc ++ [d]) := by
              simp [resolveDepStep, htm, hst, hid, hdeps]
            have hids1 : idsEq chunks
                (st.set t { tc with dependents := tc.dependents ++ [cname] }) := by
              intro j
              by_cases hjt : t = j
              · subst hjt
                rw [List.getElem?_set_self htlt, ← hids t, hst]
                rfl
              · rw [List.getElem?_set_ne hjt]
                exact hids j
            have hnames1 : ∀ j : Nat,
                (st.set t { tc with dependents := tc.dependents ++ [cname] })[j]?.map
                  CodeChunk.name = st[j]?.map CodeChunk.name := by
              intro j
              by_cases hjt : t = j
              · subst hjt
                rw [List.getElem?_set_self htlt, hst]
                rfl
              · rw [List.getElem?_set_ne hjt]
            have hdeps1 : ∀ j : Nat,
                (st.set t { tc with dependents := tc.dependents ++ [cname] })[j]?.map
                  CodeChunk.dependencies = st[j]?.map CodeChunk.dependencies := by
              intro j
              by_cases hjt : t = j
              · subst hjt
                rw [List.getElem?_set_self htlt, hst]
                rfl
              · rw [List.getElem?_set_ne hjt]
            have hdm1 : ∀ (j : Nat) (nm : String),
                depMem (st.set t { tc with dependents := tc.dependents ++ [cname] }) j nm
                  ↔ (depMem st j nm ∨ (nm = cname ∧ j = t)) := by
              intro j nm
              by_cases hjt : t = j
              · subst hjt
                unfold depMem
                rw [List.getElem?_set_self htlt, hst]
                constructor
                · rintro ⟨x, hx, hmem⟩
                  rcases Option.some.inj hx with rfl
                  simp only [List.mem_append, List.mem_singleton] at hmem
                  rcases hmem with hmem | rfl
                  · exact Or.inl ⟨tc, rfl, hmem⟩
                  · exact Or.inr ⟨rfl, rfl⟩
                · rintro (⟨x, hx, hmem⟩ | ⟨rfl, _⟩)
                  · rcases Option.some.inj hx with rfl
                    exact ⟨_, rfl, by simp [hmem]⟩
                  · exact ⟨_, rfl, by simp⟩
              · unfold depMem
                rw [List.getElem?_set_ne hjt]
                constructor
                · exact fun h => Or.inl h
                · rintro (h | ⟨_, hj⟩)
                  · exact h
                  · exact absurd hj.symm hjt
            rw [hstep] at heq
            obtain ⟨h1, h2, h3, h4, h5⟩ := ih _ st2 (acc ++ [d]) res hids1 heq
            refine ⟨h1, ?_, ?_, ?_, ?_⟩
            · rw [h2]
              simp [List.filter_cons, hkeep]
            · intro j
              rw [h3 j, hnames1 j]
            · intro j
              rw [h4 j, hdeps1 j]
            · intro j nm
              rw [h5 j nm, hdm1 j nm]
              constructor
              · rintro ((h | ⟨hc, hjt⟩) | ⟨hc, d2, hd2, hP⟩)
                · exact Or.inl h
                · refine Or.inr ⟨hc, d, List.mem_cons_self _ _, ?_, hkeep⟩
                  rw [htm, hjt]
                · exact Or.inr ⟨hc, d2, List.mem_cons_of_mem _ hd2, hP⟩
              · rintro (h | ⟨hc, d2, hd2, hP⟩)
                · exact Or.inl (Or.inl h)
                · rcases List.mem_cons.mp hd2 with rfl | hd2
                  · refine Or.inl (Or.inr ⟨hc, ?_⟩)
                    rw [htm] at hP
                    exact (Option.some.inj hP.1).symm
                  · exact Or.inr ⟨hc, d2, hd2, hP⟩

/-- The reconciler state after the outer loop has processed the first `k`
chunks. -/
def processed (chunks : List CodeChunk) (k : Nat) : List CodeChunk :=
  (List.range k).foldl (resolveStep (lastIdxOfName chunks)) chunks

theorem processed_succ (chunks : List CodeChunk) (k : Nat) :
    processed chunks (k + 1)
      = resolveStep (lastIdxOfName chunks) (processed chunks k) k := by
  unfold processed
  rw [List.range_succ, List.foldl_append, List.foldl_cons, List.foldl_nil]

theorem processChunkDependencies_eq_processed (chunks : List CodeChunk) :
    processChunkDependencies chunks = processed chunks chunks.length := rfl

theorem processed_spec (chunks : List CodeChunk) : ∀ (k : Nat),
    idsEq chunks (processed chunks k) ∧
    (∀ j : Nat, (processed chunks k)[j]?.map CodeChunk.name
        = chunks[j]?.map CodeChunk.name) ∧
    (∀ j : Nat, k ≤ j → (processed chunks k)[j]?.map CodeChunk.dependencies
        = chunks[j]?.map CodeChunk.dependencies) ∧
    (∀ (j : Nat) (cj : CodeChunk), j < k → chunks[j]? = some cj →
        (processed chunks k)[j]?.map CodeChunk.dependencies
          = some (cj.dependencies.filter (keepDepB chunks cj.id))) ∧
    (∀ (j : Nat) (nm : String),
        depMem (processed chunks k) j nm ↔
          (depMem chunks j nm ∨
            ∃ i, i < k ∧ ∃ ci, chunks[i]? = some ci ∧ nm = ci.name ∧
              ∃ d ∈ ci.dependencies, lastIdxOfName chunks d = some j ∧
                keepDepB chunks ci.id d = true)) := by
  intro k
  induction k with
  | zero =>
    refine ⟨fun _ => rfl, fun _ => rfl, fun _ _ => rfl, fun j cj hj _ => by omega,
      fun j nm => ?_⟩
    constructor
    · exact fun h => Or.inl h
    · rintro (h | ⟨i, hi, _⟩)
      · exact h
      · omega
  | succ k ihk =>
    obtain ⟨ih1, ih2, ih3, ih4, ih5⟩ := ihk
    have hlen : (processed chunks k).length = chunks.length :=
      idsEq_length chunks _ ih1
    rw [processed_succ]
    rcases hsk : (processed chunks k)[k]? with _ | c
    · -- the index is out of range: the step is the identity
      have hout : chunks.length ≤ k := by
        have := List.getElem?_eq_none_iff.mp hsk
        omega
      have hres : resolveStep (lastIdxOfName chunks) (processed chunks k) k
          = processed chunks k := by
        unfold resolveStep
        rw [hsk]
      rw [hres]
      refine ⟨ih1, ih2, fun j hj => ih3 j (by omega), fun j cj hj hcj => ?_, fun j nm => ?_⟩
      · rcases Nat.lt_or_ge j k with hjk | hjk
        · exact ih4 j cj hjk hcj
        · exfalso
          have : j < chunks.length := (List.getElem?_eq_some_iff.mp hcj).1
          omega
      · rw [ih5 j nm]
        constructor
        · rintro (h | ⟨i, hi, rest⟩)
          · exact Or.inl h
          · exact Or.inr ⟨i, by omega, rest⟩
        · rintro (h | ⟨i, hi, ci, hci, rest⟩)
          · exact Or.inl h
          · have hik : i < chunks.length := (List.getElem?_eq_some_iff.mp hci).1
            exact Or.inr ⟨i, by omega, ci, hci, rest⟩
    · -- process chunk k
      have hklt : k < (processed chunks k).length := (List.getElem?_eq_some_iff.mp hsk).1
      obtain ⟨ck, hck⟩ : ∃ ck, chunks[k]? = some ck := by
        rcases hc : chunks[k]? with _ | ck
        · exfalso
          have := List.getElem?_eq_none_iff.mp hc
          omega
        · exact ⟨ck, rfl⟩
      have hckid : ck.id = c.id := by
        have hmi := ih1 k
        rw [hsk, hck] at hmi
        simpa using hmi.symm
      have hckname : ck.name = c.name := by
        have hmi := ih2 k
        rw [hsk, hck] at hmi
        simpa using hmi.symm
      have hckdeps : ck.dependencies = c.dependencies := by
        have hmi := ih3 k (Nat.le_refl _)
        rw [hsk, hck] at hmi
        simpa using hmi.symm
      rcases hp : resolveDeps (lastIdxOfName chunks) c.id c.name c.dependencies
          (processed chunks k) with ⟨st1, res⟩
      obtain ⟨g1, g2, g3, g4, g5⟩ :=
        resolveDepsAux_spec chunks c.id c.name c.dependencies (processed chunks k) st1
          [] res ih1 (by rw [← hp]; rfl)
      have hlen1 : st1.length = chunks.length := idsEq_length chunks st1 g1
      obtain ⟨c1, hc1⟩ : ∃ c1, st1[k]? = some c1 := by
        rcases hc : st1[k]? with _ | c1
        · exfalso
          have := List.getElem?_eq_none_iff.mp hc
          omega
        · exact ⟨c1, rfl⟩
      have hkst1 : k < st1.length := (List.getElem?_eq_some_iff.mp hc1).1
      have hres : resolveStep (lastIdxOfName chunks) (processed chunks k) k
          = st1.set k { c1 with dependencies := res } := by
        unfold resolveStep
        rw [hsk]
        simp only [hp, hc1]
      rw [hres]
      have hg2 : res = c.dependencies.filter (keepDepB chunks c.id) := by
        simpa using g2
      have hc1name : c1.name = c.name := by
        have hmi := g3 k
        rw [hc1, hsk] at hmi
        simpa using hmi
      have hc1id : c1.id = c.id := by
        have h1 := g1 k
        have h2 := ih1 k
        rw [hc1] at h1
        rw [hsk] at h2
        have h3 := h1.trans h2.symm
        simpa using h3
      have hdmset : ∀ (j : Nat) (nm : String),
          depMem (st1.set k { c1 with dependencies := res }) j nm ↔ depMem st1 j nm := by
        intro j nm
        by_cases hjk : k = j
        · subst hjk
          unfold depMem
          rw [List.getElem?_set_self hkst1, hc1]
          constructor
          · rintro ⟨x, hx, hmem⟩
            rcases Option.some.inj hx with rfl
            exact ⟨c1, rfl, hmem⟩
          · rintro ⟨x, hx, hmem⟩
            rcases Option.some.inj hx with rfl
            exact ⟨_, rfl, hmem⟩
        · unfold depMem
          rw [List.getElem?_set_ne hjk]
      refine ⟨?_, ?_, ?_, ?_, ?_⟩
      · -- ids preserved
        intro j
        by_cases hjk : k = j
        · subst hjk
          rw [List.getElem?_set_self hkst1, hck]
          simp [hc1id, hckid]
        · rw [List.getElem?_set_ne hjk]
          exact g1 j
      · -- names preserved
        intro j
        by_cases hjk : k = j
        · subst hjk
          rw [List.getElem?_set_self hkst1, hck]
          simp [hc1name, hckname]
        · rw [List.getElem?_set_ne hjk]
          rw [g3 j]
          exact ih2 j
      · -- dependencies above k+1 still raw
        intro j hj
        have hjk : k ≠ j := by omega
        rw [List.getElem?_set_ne hjk, g4 j]
        exact ih3 j (by omega)
      · -- dependencies below k+1 resolved
        intro j cj hj hcj
        by_cases hjk : k = j
        · subst hjk
          rw [List.getElem?_set_self hkst1]
          have : cj = ck := by
            rw [hck] at hcj
            exact (Option.some.inj hcj).symm
          subst this
          simp only [Option.map_some', Option.some.injEq]
          rw [hg2, hckdeps, hckid]
        · rw [List.getElem?_set_ne hjk, g4 j]
          exact ih4 j cj (by omega) hcj
      · -- dependents characterization
        intro j nm
        rw [hdmset j nm, g5 j nm, ih5 j nm]
        constructor
        · rintro ((h | ⟨i, hi, rest⟩) | ⟨hnm, d, hd, hP⟩)
          · exact Or.inl h
          · exact Or.inr ⟨i, by omega, rest⟩
          · refine Or.inr ⟨k, by omega, ck, hck, ?_, d, ?_, ?_, ?_⟩
            · rw [hnm, hckname]
            · rw [hckdeps]
              exact hd
            · exact hP.1
            · rw [hckid]
              exact hP.2
        · rintro (h | ⟨i, hi, ci, hci, hnm, d, hd, hP⟩)
          · exact Or.inl (Or.inl h)
          · rcases Nat.lt_or_ge i k with hik | hik
            · exact Or.inl (Or.inr ⟨i, hik, ci, hci, hnm, d, hd, hP⟩)
            · have hieq : i = k := by omega
              subst hieq
              have : ci = ck := by
                rw [hck] at hci
                exact (Option.some.inj hci).symm
              subst this
              refine Or.inr ⟨?_, d, ?_, ?_⟩
              · rw [hnm, hckname]
              · rw [← hckdeps]
                exact hd
              · rw [← hckid]
                exact hP

/-- C1 (amended): when the chunks fed to the full-run reconciliation pass
have pairwise-distinct names (so the name map loses nothing) and start with
empty `dependents` lists (as every chunk built by extraction does), then
after `processChunkDependencies` the `dependents` relation is exactly the
transpose of the resolved `dependencies` relation: for all chunks `a`, `b`
in the result, `b.name ∈ a.dependencies ↔ a.name ∈ b.dependents`.  With a
duplicated name the equivalence can fail (see the counterexample). -/
theorem processChunkDependencies_transpose (chunks : List CodeChunk)
    (hnd : chunks.Pairwise (fun a b => a.name ≠ b.name))
    (hde : ∀ c ∈ chunks, c.dependents = []) :
    ∀ a ∈ processChunkDependencies chunks, ∀ b ∈ processChunkDependencies chunks,
      (b.name ∈ a.dependencies ↔ a.name ∈ b.dependents) := by
  obtain ⟨p1, p2, p3, p4, p5⟩ := processed_spec chunks chunks.length
  have hlen := idsEq_length chunks _ p1
  intro a ha b hb
  rw [processChunkDependencies_eq_processed] at ha hb
  obtain ⟨ia, hia⟩ := List.mem_iff_getElem?.mp ha
  obtain ⟨ib, hib⟩ := List.mem_iff_getElem?.mp hb
  have hialt : ia < chunks.length := by
    have := (List.getElem?_eq_some_iff.mp hia).1
    omega
  have hiblt : ib < chunks.length := by
    have := (List.getElem?_eq_some_iff.mp hib).1
    omega
  obtain ⟨ca, hca⟩ : ∃ ca, chunks[ia]? = some ca :=
    ⟨chunks[ia], List.getElem?_eq_some_iff.mpr ⟨hialt, rfl⟩⟩
  obtain ⟨cb, hcb⟩ : ∃ cb, chunks[ib]? = some cb :=
    ⟨chunks[ib], List.getElem?_eq_some_iff.mpr ⟨hiblt, rfl⟩⟩
  have hcaid : ca.id = a.id := by
    have hmi := p1 ia
    rw [hia, hca] at hmi
    simpa using hmi.symm
  have hcaname : ca.name = a.name := by
    have hmi := p2 ia
    rw [hia, hca] at hmi
    simpa using hmi.symm
  have hcbid : cb.id = b.id := by
    have hmi := p1 ib
    rw [hib, hcb] at hmi
    simpa using hmi.symm
  have hcbname : cb.name = b.name := by
    have hmi := p2 ib
    rw [hib, hcb] at hmi
    simpa using hmi.symm
  have hadeps : a.dependencies = ca.dependencies.filter (keepDepB chunks ca.id) := by
    have hmi := p4 ia ca hialt hca
    rw [hia] at hmi
    simpa using hmi
  have hmap : lastIdxOfName chunks b.name = some ib := by
    rw [← hcbname]
    exact lastIdxOfName_eq_some chunks hnd ib cb hcb
  have hkeep_iff : keepDepB chunks ca.id b.name = true ↔ cb.id ≠ ca.id := by
    unfold keepDepB
    rw [hmap]
    simp [hcb, bne]
  have hLHS : b.name ∈ a.dependencies ↔ (b.name ∈ ca.dependencies ∧ cb.id ≠ ca.id) := by
    rw [hadeps, List.mem_filter, hkeep_iff]
  have hRHS : a.name ∈ b.dependents ↔ depMem (processed chunks chunks.length) ib a.name := by
    constructor
    · intro h
      exact ⟨b, hib, h⟩
    · rintro ⟨x, hx, hmem⟩
      rw [hib] at hx
      rcases Option.some.inj hx with rfl
      exact hmem
  have hbase : ¬ depMem chunks ib a.name := by
    rintro ⟨x, hx, hmem⟩
    rw [hcb] at hx
    have hxcb : cb = x := Option.some.inj hx
    have hcbmem : cb ∈ chunks := by
      rcases List.getElem?_eq_some_iff.mp hcb with ⟨hj, hget⟩
      exact hget ▸ List.getElem_mem hj
    rw [← hxcb] at hmem
    rw [hde cb hcbmem] at hmem
    simp at hmem
  rw [hLHS, hRHS, p5 ib a.name]
  constructor
  · rintro ⟨hmem, hne⟩
    refine Or.inr ⟨ia, hialt, ca, hca, hcaname.symm, b.name, hmem, hmap, hkeep_iff.mpr hne⟩
  · rintro (h | ⟨i, hi, ci, hci, hnm, d, hd, hPl, hPk⟩)
    · exact absurd h hbase
    · have hieq : i = ia := by
        have h1 : lastIdxOfName chunks ci.name = some i :=
          lastIdxOfName_eq_some chunks hnd i ci hci
        have h2 : lastIdxOfName chunks ca.name = some ia :=
          lastIdxOfName_eq_some chunks hnd ia ca hca
        have hnames : ci.name = ca.name := by
          rw [← hnm]
          exact hcaname.symm
        rw [hnames] at h1
        exact Option.some.inj (h1.symm.trans h2)
      subst hieq
      have hcieq : ci = ca := by
        rw [hca] at hci
        exact (Option.some.inj hci).symm
      subst hcieq
      obtain ⟨tc, htc, htcname⟩ := lastIdxOfName_name chunks d ib hPl
      have htceq : tc = cb := by
        rw [hcb] at htc
        exact (Option.some.inj htc).symm
      have hdname : d = b.name := by
        rw [← htcname, htceq, hcbname]
      refine ⟨by rw [← hdname]; exact hd, ?_⟩
      rw [hdname] at hPk
      exact hkeep_iff.mp hPk

/-- Concrete pair of distinct-name chunks used to witness the amended
transpose theorem: `run` depends on `add`. -/
def exAdd : CodeChunk := mkChunk "a1" "add" []

/-- Concrete chunk depending on `exAdd` by name. -/
def exRun : CodeChunk := mkChunk "b2" "run" ["add"]

theorem processChunkDependencies_transpose_witness :
    ([exAdd, exRun] : List CodeChunk).Pairwise (fun a b => a.name ≠ b.name) ∧
    (∀ c ∈ [exAdd, exRun], c.dependents = []) ∧
    (∀ a ∈ processChunkDependencies [exAdd, exRun],
      ∀ b ∈ processChunkDependencies [exAdd, exRun],
        (b.name ∈ a.dependencies ↔ a.name ∈ b.dependents)) :=
  ⟨by decide, by decide,
   processChunkDependencies_transpose [exAdd, exRun] (by decide) (by decide)⟩

end McpCodebase
